import Mathlib

/-!
Verification of the subtitle-acquisition pipeline of
`plex_opensub_downloader` (files `src/plex_opensub_downloader.py` and
`src/downloader.py`).

The Python source is shallowly embedded: Python strings are modelled as
their character lists (`Str := List Char`, with `String.data` used to
write literals), Python sets as `Finset`, machine floats used only for
ordering comparisons (subtitle ratings) as `ℚ`, byte strings as
`List Nat`, and the network as an explicit environment of queued
responses consumed one per request.  Stateful methods of the
`OpenSubtitlesAPI` class become functions from an explicit state
(`ApiState`) and environment to results, threading the state and
recording every rate-limiter acquisition and outbound request as an
event trace.
-/

namespace PlexOpensub

/-- Python strings, modelled as their character lists. -/
abbrev Str := List Char

/-- Model of Python `str.lower()` (ASCII letters; `Char.toLower` mirrors
this for the basic-latin range, which covers language tags). -/
def lower (s : Str) : Str := s.map Char.toLower

/-- The three-letter to two-letter conversion table from
`get_existing_subtitle_languages` (both source files, identical):
`{'eng': 'en', 'spa': 'es', 'fra': 'fr', 'deu': 'de', 'ita': 'it', 'por': 'pt'}`. -/
def conversions : List (Str × Str) :=
  [("eng".data, "en".data), ("spa".data, "es".data), ("fra".data, "fr".data),
   ("deu".data, "de".data), ("ita".data, "it".data), ("por".data, "pt".data)]

/-- The per-tag normalization performed inside
`get_existing_subtitle_languages` (src/plex_opensub_downloader.py lines
363-367): lowercase; a three-letter code is looked up in the conversion
table, defaulting to its first two characters; other lengths pass
through lowercased. -/
def normalizeLang (s : Str) : Str :=
  let l := lower s
  if l.length = 3 then (conversions.lookup l).getD (l.take 2) else l

/-- `PlexSubtitleDownloader.get_existing_subtitle_languages`
(src/plex_opensub_downloader.py lines 356-370).  A stream's
`languageCode` is an `Option Str`; Python's truthiness test
`if stream.languageCode:` skips both `None` and the empty string.
Streams without a (truthy) language tag contribute nothing. -/
def getExistingSubtitleLanguages (streams : List (Option Str)) : Finset Str :=
  streams.foldl
    (fun acc lc =>
      match lc with
      | some s => if s = [] then acc else insert (normalizeLang s) acc
      | none => acc)
    ∅

/-- `PlexSeleniumDownloader.get_existing_subtitle_languages`
(src/downloader.py lines 139-154): identical to the API-path version
except that a stream whose tag fails the truthiness test is recorded as
English (`'en'`). -/
def seleniumGetExistingSubtitleLanguages (streams : List (Option Str)) : Finset Str :=
  streams.foldl
    (fun acc lc =>
      match lc with
      | some s => if s = [] then insert "en".data acc else insert (normalizeLang s) acc
      | none => insert "en".data acc)
    ∅

/-- `PlexSubtitleDownloader.needs_subtitles`
(src/plex_opensub_downloader.py lines 372-381):
`set(self.languages) - existing`. -/
def needsSubtitles (languages : List Str) (streams : List (Option Str)) : Finset Str :=
  languages.toFinset \ getExistingSubtitleLanguages streams

/- ## Helper lemmas on character lowering -/

theorem char_toNat_ofNat_lower (n : Nat) (h1 : 97 ≤ n) (h2 : n ≤ 122) :
    (Char.ofNat n).toNat = n := by
  interval_cases n <;> decide

theorem char_toLower_idem (c : Char) : c.toLower.toLower = c.toLower := by
  simp only [Char.toLower]
  by_cases h : c.toNat ≥ 65 ∧ c.toNat ≤ 90
  · rw [if_pos h]
    have ht : (Char.ofNat (c.toNat + 32)).toNat = c.toNat + 32 :=
      char_toNat_ofNat_lower _ (by omega) (by omega)
    rw [if_neg]
    rw [ht]
    omega
  · rw [if_neg h, if_neg h]

theorem lower_idem (s : Str) : lower (lower s) = lower s := by
  induction s with
  | nil => rfl
  | cons a t ih =>
    simp only [lower, List.map_cons, List.map_map] at *
    rw [char_toLower_idem]
    exact congrArg _ ih

theorem lower_length (s : Str) : (lower s).length = s.length := by
  simp [lower]

theorem lower_take (s : Str) (n : Nat) : lower (s.take n) = (lower s).take n := by
  simp [lower, List.map_take]

theorem lookup_conversions_mem (l v : Str) (h : conversions.lookup l = some v) :
    v = "en".data ∨ v = "es".data ∨ v = "fr".data ∨ v = "de".data ∨
      v = "it".data ∨ v = "pt".data := by
  simp only [conversions, List.lookup] at h
  repeat' split at h
  all_goals first
    | (injection h with h; subst h; decide)
    | simp at h

theorem normalizeLang_idem (s : Str) : normalizeLang (normalizeLang s) = normalizeLang s := by
  by_cases h3 : (lower s).length = 3
  · match hl : conversions.lookup (lower s) with
    | some v =>
      have hns : normalizeLang s = v := by
        simp only [normalizeLang, if_pos h3, hl, Option.getD_some]
      rw [hns]
      rcases lookup_conversions_mem _ _ hl with h | h | h | h | h | h <;> (subst h; decide)
    | none =>
      have hns : normalizeLang s = (lower s).take 2 := by
        simp only [normalizeLang, if_pos h3, hl, Option.getD_none]
      rw [hns]
      have hlow : lower ((lower s).take 2) = (lower s).take 2 := by
        rw [lower_take, lower_idem]
      have hlen : ((lower s).take 2).length ≠ 3 := by
        rw [List.length_take, h3]; decide
      simp only [normalizeLang, hlow, if_neg hlen]
  · have hns : normalizeLang s = lower s := by
      simp only [normalizeLang, if_neg h3]
    rw [hns]
    simp only [normalizeLang, lower_idem, if_neg h3]

/-- Membership in the fold that builds the existing-language set. -/
theorem mem_getExistingSubtitleLanguages (streams : List (Option Str)) (x : Str) :
    x ∈ getExistingSubtitleLanguages streams ↔
      ∃ s : Str, some s ∈ streams ∧ s ≠ [] ∧ normalizeLang s = x := by
  have general : ∀ (l : List (Option Str)) (acc : Finset Str),
      x ∈ l.foldl
        (fun acc lc =>
          match lc with
          | some s => if s = [] then acc else insert (normalizeLang s) acc
          | none => acc) acc ↔
      (x ∈ acc ∨ ∃ s : Str, some s ∈ l ∧ s ≠ [] ∧ normalizeLang s = x) := by
    intro l
    induction l with
    | nil => simp
    | cons hd tl ih =>
      intro acc
      match hd with
      | none =>
        simp only [List.foldl_cons, ih, List.mem_cons]
        constructor
        · rintro (h | ⟨s, hs, h1, h2⟩)
          · exact Or.inl h
          · exact Or.inr ⟨s, Or.inr hs, h1, h2⟩
        · rintro (h | ⟨s, hs | hs, h1, h2⟩)
          · exact Or.inl h
          · exact absurd hs.symm (by simp)
          · exact Or.inr ⟨s, hs, h1, h2⟩
      | some s0 =>
        by_cases h0 : s0 = []
        · subst h0
          simp only [List.foldl_cons, if_pos rfl, ih, List.mem_cons]
          constructor
          · rintro (h | ⟨s, hs, h1, h2⟩)
            · exact Or.inl h
            · exact Or.inr ⟨s, Or.inr hs, h1, h2⟩
          · rintro (h | ⟨s, hs | hs, h1, h2⟩)
            · exact Or.inl h
            · injection hs.symm with hs'; exact absurd hs'.symm h1
            · exact Or.inr ⟨s, hs, h1, h2⟩
        · simp only [List.foldl_cons, if_neg h0, ih, List.mem_cons, Finset.mem_insert]
          constructor
          · rintro ((h | h) | ⟨s, hs, h1, h2⟩)
            · exact Or.inr ⟨s0, Or.inl rfl, h0, h.symm⟩
            · exact Or.inl h
            · exact Or.inr ⟨s, Or.inr hs, h1, h2⟩
          · rintro (h | ⟨s, hs | hs, h1, h2⟩)
            · exact Or.inl (Or.inr h)
            · injection hs.symm with hs'; subst hs'; exact Or.inl (Or.inl h2.symm)
            · exact Or.inr ⟨s, hs, h1, h2⟩
  simpa using general streams ∅

/- ## Subtitle candidates and best-candidate selection
(`PlexSubtitleDownloader.download_subtitles_for_item`, lines 488-512) -/

/-- One raw search result, as consumed by the per-language loop.  Every
field access in the source is a defaulted dictionary lookup
(`x.get('attributes', {}).get('ratings', 0)` etc.), so each field is an
`Option`; `files` models `attributes['files']`, a list of entries each
optionally carrying a `file_id`. -/
structure RawResult where
  language : Option Str
  ratings : Option ℚ
  download_count : Option Int
  release : Option Str
  uploaderName : Option Str
  files : Option (List (Option Nat))
deriving DecidableEq

/-- `attrs.get('ratings', 0)` — the rating used as primary sort key. -/
def rat (r : RawResult) : ℚ := r.ratings.getD 0

/-- `attrs.get('download_count', 0)` — the tie-break sort key. -/
def dlc (r : RawResult) : Int := r.download_count.getD 0

/-- Python's tuple comparison on the sort key
`(ratings, download_count)`: lexicographic, ascending. -/
def keyLe (a b : RawResult) : Prop :=
  rat a < rat b ∨ (rat a = rat b ∧ dlc a ≤ dlc b)

instance : DecidableRel keyLe := fun a b => by unfold keyLe; infer_instance

/-- The ordering used by `lang_results.sort(key=..., reverse=True)`:
descending in the composite key.  A stable sort under this relation
keeps equal-key candidates in encounter order, exactly like CPython's
stable `list.sort(reverse=True)`. -/
def sortRel (a b : RawResult) : Prop := keyLe b a

instance : DecidableRel sortRel := fun a b => by unfold sortRel; infer_instance

/-- The filter `r.get('attributes', {}).get('language') == lang`. -/
def langMatches (lang : Str) (r : RawResult) : Bool := r.language == some lang

/-- Lines 490-506: filter the search results to the requested language,
stable-sort descending by (rating, download count), and take the head
(`lang_results[0]`); the empty-filter case is the `continue` branch
(`None`). -/
def selectBest (results : List RawResult) (lang : Str) : Option RawResult :=
  (List.insertionSort sortRel (results.filter (langMatches lang))).head?

/-- Specification-level characterisation of the head of the stable
descending sort: the first element (in original order) whose key is
maximal. -/
def firstMax : List RawResult → Option RawResult
  | [] => none
  | a :: l =>
    match firstMax l with
    | none => some a
    | some h => if keyLe h a then some a else some h

theorem keyLe_refl (a : RawResult) : keyLe a a := Or.inr ⟨rfl, le_refl _⟩

theorem keyLe_total (a b : RawResult) : keyLe a b ∨ keyLe b a := by
  unfold keyLe
  rcases lt_trichotomy (rat a) (rat b) with h | h | h
  · exact Or.inl (Or.inl h)
  · rcases le_total (dlc a) (dlc b) with hd | hd
    · exact Or.inl (Or.inr ⟨h, hd⟩)
    · exact Or.inr (Or.inr ⟨h.symm, hd⟩)
  · exact Or.inr (Or.inl h)

theorem keyLe_trans (a b c : RawResult) (hab : keyLe a b) (hbc : keyLe b c) : keyLe a c := by
  unfold keyLe at *
  rcases hab with h1 | ⟨h1, h1'⟩ <;> rcases hbc with h2 | ⟨h2, h2'⟩
  · exact Or.inl (lt_trans h1 h2)
  · exact Or.inl (h2 ▸ h1)
  · exact Or.inl (h1 ▸ h2)
  · exact Or.inr ⟨h1.trans h2, h1'.trans h2'⟩

theorem keyLe_of_not_keyLe (a b : RawResult) (h : ¬ keyLe a b) : keyLe b a :=
  (keyLe_total a b).resolve_left h

theorem firstMax_cons_none (a : RawResult) (l : List RawResult) (hm : firstMax l = none) :
    firstMax (a :: l) = some a := by
  simp [firstMax, hm]

theorem firstMax_cons_some (a b : RawResult) (l : List RawResult) (hm : firstMax l = some b) :
    firstMax (a :: l) = if keyLe b a then some a else some b := by
  simp [firstMax, hm]

theorem firstMax_eq_none_iff (l : List RawResult) : firstMax l = none ↔ l = [] := by
  cases l with
  | nil => simp [firstMax]
  | cons a t =>
    constructor
    · intro h
      cases hm : firstMax t with
      | none => rw [firstMax_cons_none a t hm] at h; exact absurd h (by simp)
      | some b =>
        rw [firstMax_cons_some a b t hm] at h
        split at h <;> simp_all
    · intro h; exact absurd h (by simp)

theorem head?_insertionSort (l : List RawResult) :
    (List.insertionSort sortRel l).head? = firstMax l := by
  induction l with
  | nil => rfl
  | cons a t ih =>
    simp only [List.insertionSort]
    match hs : List.insertionSort sortRel t with
    | [] =>
      have ht : t = [] := by
        have := List.length_insertionSort sortRel t
        rw [hs] at this
        exact List.eq_nil_of_length_eq_zero this.symm
      subst ht
      simp [firstMax, List.orderedInsert]
    | b :: t' =>
      rw [hs] at ih
      simp only [List.head?] at ih
      rw [firstMax_cons_some a b t ih.symm]
      simp only [List.orderedInsert]
      split
      · rename_i hab
        simp only [List.head?]
        rw [if_pos (show keyLe b a from hab)]
      · rename_i hab
        simp only [List.head?]
        rw [if_neg (show ¬ keyLe b a from hab)]

theorem firstMax_mem (l : List RawResult) (c : RawResult) (h : firstMax l = some c) : c ∈ l := by
  induction l with
  | nil => simp [firstMax] at h
  | cons a t ih =>
    cases hm : firstMax t with
    | none =>
      rw [firstMax_cons_none a t hm] at h
      injection h with h; subst h; exact List.mem_cons_self _ _
    | some b =>
      rw [firstMax_cons_some a b t hm] at h
      split at h
      · injection h with h; subst h; exact List.mem_cons_self _ _
      · injection h with h; subst h; exact List.mem_cons_of_mem _ (ih hm)

theorem firstMax_maximal (l : List RawResult) (c : RawResult) (h : firstMax l = some c) :
    ∀ d ∈ l, keyLe d c := by
  induction l generalizing c with
  | nil => simp [firstMax] at h
  | cons a t ih =>
    cases hm : firstMax t with
    | none =>
      rw [firstMax_cons_none a t hm] at h
      injection h with h; subst h
      have ht : t = [] := (firstMax_eq_none_iff t).mp hm
      subst ht
      intro d hd
      rw [List.mem_singleton] at hd
      subst hd
      exact keyLe_refl _
    | some b =>
      rw [firstMax_cons_some a b t hm] at h
      intro d hd
      rcases List.mem_cons.mp hd with hda | hdt
      · subst hda
        split at h
        · injection h with h; subst h; exact keyLe_refl _
        · rename_i hba
          injection h with h; subst h
          exact keyLe_of_not_keyLe _ _ hba
      · split at h
        · rename_i hba
          injection h with h; subst h
          exact keyLe_trans _ _ _ (ih b hm d hdt) hba
        · injection h with h; subst h
          exact ih _ hm d hdt

theorem firstMax_first (l : List RawResult) (c : RawResult) (h : firstMax l = some c) :
    ∃ l1 l2, l = l1 ++ c :: l2 ∧ ∀ d ∈ l1, ¬ keyLe c d := by
  induction l with
  | nil => simp [firstMax] at h
  | cons a t ih =>
    cases hm : firstMax t with
    | none =>
      rw [firstMax_cons_none a t hm] at h
      injection h with h; subst h
      exact ⟨[], t, rfl, by simp⟩
    | some b =>
      rw [firstMax_cons_some a b t hm] at h
      split at h
      · injection h with h; subst h
        exact ⟨[], t, rfl, by simp⟩
      · rename_i hba
        injection h with h; subst h
        obtain ⟨l1, l2, ht, hlt⟩ := ih hm
        refine ⟨a :: l1, l2, by rw [ht]; rfl, ?_⟩
        intro d hd
        rcases List.mem_cons.mp hd with hda | hdl1
        · subst hda; exact hba
        · exact hlt d hdl1

/- ## selectBest characterisation -/

theorem selectBest_eq_firstMax (results : List RawResult) (lang : Str) :
    selectBest results lang = firstMax (results.filter (langMatches lang)) :=
  head?_insertionSort _

theorem selectBest_eq_none_iff (results : List RawResult) (lang : Str) :
    selectBest results lang = none ↔ ∀ r ∈ results, ¬ (r.language = some lang) := by
  rw [selectBest_eq_firstMax, firstMax_eq_none_iff, List.filter_eq_nil_iff]
  constructor
  · intro h r hr hlang
    exact absurd (by simp [langMatches, hlang]) (h r hr)
  · intro h r hr hmatch
    exact h r hr (by simpa [langMatches] using hmatch)

theorem selectBest_mem (results : List RawResult) (lang : Str) (c : RawResult)
    (h : selectBest results lang = some c) : c ∈ results := by
  rw [selectBest_eq_firstMax] at h
  exact List.mem_of_mem_filter (firstMax_mem _ _ h)

theorem selectBest_lang (results : List RawResult) (lang : Str) (c : RawResult)
    (h : selectBest results lang = some c) : c.language = some lang := by
  rw [selectBest_eq_firstMax] at h
  have := List.of_mem_filter (firstMax_mem _ _ h)
  simpa [langMatches] using this

theorem selectBest_maximal (results : List RawResult) (lang : Str) (c : RawResult)
    (h : selectBest results lang = some c) :
    ∀ d ∈ results, d.language = some lang → keyLe d c := by
  rw [selectBest_eq_firstMax] at h
  intro d hd hlang
  exact firstMax_maximal _ _ h d (List.mem_filter.mpr ⟨hd, by simp [langMatches, hlang]⟩)

theorem selectBest_first (results : List RawResult) (lang : Str) (c : RawResult)
    (h : selectBest results lang = some c) :
    ∃ l1 l2, results.filter (langMatches lang) = l1 ++ c :: l2 ∧ ∀ d ∈ l1, ¬ keyLe c d := by
  rw [selectBest_eq_firstMax] at h
  exact firstMax_first _ _ h

/- ## Per-item download loop and download records
(`PlexSubtitleDownloader.download_subtitles_for_item`, lines 488-548) -/

/-- The `DownloadedSubtitle` dataclass (lines 34-45). -/
structure DownloadedSubtitle where
  media_title : Str
  media_type : Str
  language : Str
  subtitle_file : Str
  rating : ℚ
  download_count : Int
  release_name : Str
  uploader : Str
  timestamp : Str
deriving DecidableEq

/-- Per-item context threaded through the loop: the display name and
media type computed at lines 432-436, `get_subtitle_path` partially
applied to the item's media path, and the wall-clock timestamp the
dataclass default would record. -/
structure ItemCtx where
  itemName : Str
  mediaType : Str
  subtitlePath : Str → Str
  timestamp : Str

/-- The record appended at lines 532-541. -/
def mkRecord (ctx : ItemCtx) (lang : Str) (best : RawResult) : DownloadedSubtitle :=
  { media_title := ctx.itemName
    media_type := ctx.mediaType
    language := lang
    subtitle_file := ctx.subtitlePath lang
    rating := rat best
    download_count := dlc best
    release_name := best.release.getD "Unknown".data
    uploader := best.uploaderName.getD "Unknown".data
    timestamp := ctx.timestamp }

/-- Python `if content:` — `None` and the empty byte string are both
falsy. -/
def contentTruthy : Option (List Nat) → Bool
  | some (_ :: _) => true
  | _ => false

/-- The per-language loop of `download_subtitles_for_item` (lines
488-548).  `dl k` is the outcome of the `k`-th call to
`api.download_subtitle` in this item; `save k` tells whether writing
the file for that attempt succeeds (the `try` at lines 525-544).
Accumulators: `a` counts download attempts (oracle index), `count` is
`downloaded_count`, `report` is `self.download_report`.  The result is
`Except` because `attrs.get('files', [{}])[0]` raises `IndexError`
when the provider explicitly sends an empty `files` list, aborting the
whole item (caught only in `process_library`).  Note: on a failed
download or a failed save the code only logs — nothing is appended to
the report. -/
def processLanguages (ctx : ItemCtx) (results : List RawResult)
    (dl : Nat → Option (List Nat)) (save : Nat → Bool) :
    List Str → Nat → Nat → List DownloadedSubtitle →
    Except Unit (Nat × List DownloadedSubtitle)
  | [], _, count, report => .ok (count, report)
  | lang :: rest, a, count, report =>
    match selectBest results lang with
    | none => processLanguages ctx results dl save rest a count report
    | some best =>
      match best.files with
      | some [] => .error ()
      | some (fid? :: _) =>
        match fid? with
        | none => processLanguages ctx results dl save rest a count report
        | some 0 => processLanguages ctx results dl save rest a count report
        | some _ =>
          if contentTruthy (dl a) then
            if save a then
              processLanguages ctx results dl save rest (a + 1) (count + 1)
                (report ++ [mkRecord ctx lang best])
            else processLanguages ctx results dl save rest (a + 1) count report
          else processLanguages ctx results dl save rest (a + 1) count report
      | none => processLanguages ctx results dl save rest a count report

/-- No candidate carries a present-but-empty `files` list (the shape
under which the Python loop raises `IndexError`). -/
def ResultsWf (results : List RawResult) : Prop :=
  ∀ r ∈ results, r.files ≠ some []

/- ## OpenSubtitlesAPI client state machine
(`OpenSubtitlesAPI.login` / `search_subtitles` / `download_subtitle`,
src/plex_opensub_downloader.py lines 112-312)

The mutable client fields that the claims mention are `jwt_token` and
`remaining_downloads`.  The network is an environment of queued
responses, one queue per endpoint, consumed one element per request; an
exhausted queue behaves like a `requests` exception.  Every
`_wait_for_rate_limit()` call and every outbound request is emitted
into an event trace. -/

structure ApiState where
  jwt_token : Option Str
  remaining_downloads : Option Int
deriving DecidableEq

/-- Response to `POST /login`: HTTP status plus the optional `token`
field of the JSON body, or a transport exception. -/
inductive LoginResp
  | resp (status : Nat) (token : Option Str)
  | exn
deriving DecidableEq

/-- Response to `POST /download`: status, optional `link`, optional
`remaining`, optional `Retry-After` header. -/
inductive DlResp
  | resp (status : Nat) (link : Option Str) (remaining : Option Int) (retryAfter : Option Nat)
  | exn
deriving DecidableEq

/-- Response to the `GET` of the signed subtitle URL. -/
inductive FileResp
  | resp (status : Nat) (content : List Nat)
  | exn
deriving DecidableEq

/-- Response to `GET /subtitles`. -/
inductive SearchResp
  | resp (status : Nat) (retryAfter : Option Nat) (data : List RawResult)
  | exn
deriving DecidableEq

structure Env where
  loginResps : List LoginResp
  dlResps : List DlResp
  fileResps : List FileResp
  searchResps : List SearchResp
deriving DecidableEq

/-- Trace events: one `acquire` per `_wait_for_rate_limit()` call, one
event per outbound HTTP request. -/
inductive Event
  | acquire
  | loginPost
  | searchGet
  | downloadPost
  | fileGet
deriving DecidableEq

def Env.popLogin (env : Env) : Option LoginResp × Env :=
  (env.loginResps.head?, { env with loginResps := env.loginResps.tail })

def Env.popDl (env : Env) : Option DlResp × Env :=
  (env.dlResps.head?, { env with dlResps := env.dlResps.tail })

def Env.popFile (env : Env) : Option FileResp × Env :=
  (env.fileResps.head?, { env with fileResps := env.fileResps.tail })

def Env.popSearch (env : Env) : Option SearchResp × Env :=
  (env.searchResps.head?, { env with searchResps := env.searchResps.tail })

/-- `OpenSubtitlesAPI.login` (lines 112-151).  Without credentials it
returns `False` before any network activity.  Otherwise it acquires the
rate limiter, posts, and on HTTP 200 stores `data.get('token')` (which
the code does not check for presence); 401, other statuses and
transport errors all return `False` without touching the token. -/
def login (hasCreds : Bool) (st : ApiState) (env : Env) :
    Bool × ApiState × Env × List Event :=
  if hasCreds then
    let (r?, env') := env.popLogin
    let evs := [Event.acquire, Event.loginPost]
    match r? with
    | some (.resp status token) =>
      if status = 200 then (true, { st with jwt_token := token }, env', evs)
      else (false, st, env', evs)
    | some .exn => (false, st, env', evs)
    | none => (false, st, env', evs)
  else (false, st, env, [])

/-- Line 252: `self.remaining_downloads is not None and self.remaining_downloads <= 0`. -/
def quotaExhausted : Option Int → Bool
  | some q => decide (q ≤ 0)
  | none => false

/-- Line 283: `data.get('remaining', self.remaining_downloads)`. -/
def newQuota (remaining old : Option Int) : Option Int :=
  match remaining with
  | some v => some v
  | none => old

/-- Prepend a trace prefix to a call result. -/
def withEvents (pre : List Event)
    (r : Option (List Nat) × ApiState × Env × List Event) :
    Option (List Nat) × ApiState × Env × List Event :=
  (r.1, r.2.1, r.2.2.1, pre ++ r.2.2.2)

/-- The status chain of `OpenSubtitlesAPI.download_subtitle` (lines
280-312), acting on the (post-429-handling) response to the
download-initiation POST.  200 refreshes the quota from
`data.get('remaining', old)` and, only when a `link` is present, GETs
it — with no rate-limit acquire; 401 clears the token, re-logs in and
on success re-enters the whole method via `recur`; 406, other
statuses, a missing response and transport errors all fail.  Events
are this part's own (the POST block is prepended by the caller). -/
def downloadStatusChain (hasCreds : Bool) (st1 : ApiState) (resp? : Option DlResp)
    (env3 : Env)
    (recur : ApiState → Env → Option (List Nat) × ApiState × Env × List Event) :
    Option (List Nat) × ApiState × Env × List Event :=
  match resp? with
  | none => (none, st1, env3, [])
  | some .exn => (none, st1, env3, [])
  | some (.resp status link remaining _) =>
    if status = 200 then
      let st2 := { st1 with
        remaining_downloads := newQuota remaining st1.remaining_downloads }
      match link with
      | some _ =>
        match (env3.popFile).1 with
        | some (.resp 200 content) => (some content, st2, (env3.popFile).2, [Event.fileGet])
        | _ => (none, st2, (env3.popFile).2, [Event.fileGet])
      | none => (none, st2, env3, [])
    else if status = 401 then
      match login hasCreds { st1 with jwt_token := none } env3 with
      | (true, st3, env4, ev5) =>
        match recur st3 env4 with
        | (res, st4, env5, ev6) => (res, st4, env5, ev5 ++ ev6)
      | (false, st3, env4, ev5) => (none, st3, env4, ev5)
    else (none, st1, env3, [])

/-- The part of `OpenSubtitlesAPI.download_subtitle` after the
lazy-login step: quota fail-fast (line 252, before any network
activity), rate-limit acquire, POST, the single in-handler retry on a
429 carrying `Retry-After` (re-POST with no fresh acquire), then the
status chain above. -/
def downloadCoreWith (hasCreds : Bool) (st1 : ApiState) (env1 : Env)
    (recur : ApiState → Env → Option (List Nat) × ApiState × Env × List Event) :
    Option (List Nat) × ApiState × Env × List Event :=
  if quotaExhausted st1.remaining_downloads then (none, st1, env1, [])
  else
    match (env1.popDl).1 with
    | some (DlResp.resp rstatus rlink rrem rra) =>
      if rstatus = 429 ∧ rra.isSome = true then
        withEvents [Event.acquire, Event.downloadPost, Event.downloadPost]
          (downloadStatusChain hasCreds st1 (((env1.popDl).2).popDl).1
            (((env1.popDl).2).popDl).2 recur)
      else
        withEvents [Event.acquire, Event.downloadPost]
          (downloadStatusChain hasCreds st1 (some (DlResp.resp rstatus rlink rrem rra))
            ((env1.popDl).2) recur)
    | r? =>
      withEvents [Event.acquire, Event.downloadPost]
        (downloadStatusChain hasCreds st1 r? ((env1.popDl).2) recur)

/-- `OpenSubtitlesAPI.download_subtitle` (lines 235-312).  `fuel`
bounds the 401 → re-login → full-retry recursion of lines 294-300 (the
Python code has no such bound; fuel 0 is a modelling artifact never
hit on the finite traces the theorems use).  First the lazy-login step
of lines 246-249, then the core above. -/
def downloadSubtitle (hasCreds : Bool) (fid : Nat) :
    Nat → ApiState → Env → Option (List Nat) × ApiState × Env × List Event
  | 0, st, env => (none, st, env, [])
  | fuel + 1, st, env =>
    match st.jwt_token with
    | some _ =>
      downloadCoreWith hasCreds st env
        (fun st' env' => downloadSubtitle hasCreds fid fuel st' env')
    | none =>
      match login hasCreds st env with
      | (true, st1, env1, ev1) =>
        withEvents ev1 (downloadCoreWith hasCreds st1 env1
          (fun st' env' => downloadSubtitle hasCreds fid fuel st' env'))
      | (false, st1, env1, ev1) => (none, st1, env1, ev1)

/-- The status chain of `search_subtitles` (lines 218-233): 200
returns the data list, 406 the empty list, 401/other/exception return
failure.  Events pass through from the request phase. -/
def searchFinish (r? : Option SearchResp) (ev : List Event) (env2 : Env) :
    Option (List RawResult) × Env × List Event :=
  match r? with
  | none => (none, env2, ev)
  | some .exn => (none, env2, ev)
  | some (.resp status _ d) =>
    if status = 200 then (some d, env2, ev)
    else if status = 401 then (none, env2, ev)
    else if status = 406 then (some [], env2, ev)
    else (none, env2, ev)

/-- `OpenSubtitlesAPI.search_subtitles` (lines 153-233): acquire, GET,
one in-handler retry (a second GET with no fresh acquire) on a 429
carrying `Retry-After`, then the status chain above. -/
def searchSubtitles (env : Env) : Option (List RawResult) × Env × List Event :=
  match (env.popSearch).1 with
  | some (SearchResp.resp s1 ra1 d1) =>
    if s1 = 429 ∧ ra1.isSome = true then
      searchFinish ((((env.popSearch).2).popSearch).1)
        [Event.acquire, Event.searchGet, Event.searchGet] ((((env.popSearch).2).popSearch).2)
    else
      searchFinish (some (SearchResp.resp s1 ra1 d1)) [Event.acquire, Event.searchGet]
        ((env.popSearch).2)
  | r? => searchFinish r? [Event.acquire, Event.searchGet] ((env.popSearch).2)

/- ## Event-trace checkers -/

/-- The discipline claimed by the spec: every outbound request is
preceded by an acquire issued since the previous outbound request.
`armed` records whether an acquire has happened since the last
request. -/
def wellSpacedFrom : Bool → List Event → Bool
  | _, [] => true
  | _, Event.acquire :: rest => wellSpacedFrom true rest
  | armed, _ :: rest => armed && wellSpacedFrom false rest

def wellSpaced (evs : List Event) : Bool := wellSpacedFrom false evs

/-- The discipline the code actually implements, as an adjacency
check: a login POST directly follows an acquire; a download POST
directly follows an acquire or the previous POST attempt (the single
429 retry); a search GET directly follows an acquire or the previous
GET attempt; the signed-URL GET directly follows the download POST —
with no acquire in between. -/
def stepOk : Option Event → Event → Bool
  | _, Event.acquire => true
  | prev, Event.loginPost => prev == some Event.acquire
  | prev, Event.searchGet => prev == some Event.acquire || prev == some Event.searchGet
  | prev, Event.downloadPost => prev == some Event.acquire || prev == some Event.downloadPost
  | prev, Event.fileGet => prev == some Event.downloadPost

def adjOkFrom : Option Event → List Event → Bool
  | _, [] => true
  | prev, e :: rest => stepOk prev e && adjOkFrom (some e) rest

def adjOk (evs : List Event) : Bool := adjOkFrom none evs

/-- The last event of `xs`, defaulting to `p`. -/
def lastO : Option Event → List Event → Option Event
  | p, [] => p
  | _, e :: rest => lastO (some e) rest

theorem adjOkFrom_append (p : Option Event) (xs ys : List Event) :
    adjOkFrom p (xs ++ ys) = (adjOkFrom p xs && adjOkFrom (lastO p xs) ys) := by
  induction xs generalizing p with
  | nil => simp [adjOkFrom, lastO]
  | cons e t ih =>
    simp only [List.cons_append, adjOkFrom, lastO, Bool.and_assoc]
    rw [show t.append ys = t ++ ys from rfl, ih]

/- ## Rate limiter (`OpenSubtitlesAPI._wait_for_rate_limit`, lines 84-91)

Wall-clock time is modelled as `ℚ`.  The limiter state is the
`last_request_time` field together with the configured
`min_request_interval`.  An acquire made at wall time `now` computes
the elapsed time since the last grant, sleeps exactly the remaining
deficit when the interval has not yet elapsed, and records the
post-sleep wall time (`now + sleep`) as the new `last_request_time`.
The returned first component is the grant time. -/

structure RL where
  last_request_time : ℚ
  min_request_interval : ℚ

def waitForRateLimit (st : RL) (now : ℚ) : ℚ × RL :=
  let elapsed := now - st.last_request_time
  let sleepTime := if elapsed < st.min_request_interval
    then st.min_request_interval - elapsed else 0
  let grant := now + sleepTime
  (grant, { st with last_request_time := grant })

/-- A tight loop of acquisitions: `delays` lists, for each successive
call, the wall-clock delay between the previous grant and the moment
the caller re-invokes `acquire` (0 in the tightest loop).  Returns the
grant times in order. -/
def runAcquires (st : RL) : List ℚ → List ℚ
  | [] => []
  | d :: ds =>
    (waitForRateLimit st (st.last_request_time + d)).1 ::
      runAcquires (waitForRateLimit st (st.last_request_time + d)).2 ds

/-- Consecutive elements of a list are at least `m` apart. -/
def SpacedBy (m : ℚ) : List ℚ → Prop
  | [] => True
  | [_] => True
  | a :: b :: rest => a + m ≤ b ∧ SpacedBy m (b :: rest)

/- ## Library-level driver
(`PlexSubtitleDownloader.process_library` lines 626-718 and
`process_all_libraries` lines 720-751)

Items are abstracted to the outcome the driver observes for them:
`.error ()` when processing raised (caught at lines 703-705), `.ok
none` when `needs_subtitles` was empty, `.ok (some n)` when the item
was missing subtitles and `download_subtitles_for_item` returned `n`. -/

structure LibStats where
  total : Nat
  needs : Nat
  downloaded : Nat
  errors : Nat
  skipped : Nat
deriving DecidableEq

structure LibItem where
  outcome : Except Unit (Option Nat)

/-- Python truthiness of the `max_downloads` argument: `None` and `0`
are both falsy, so `if max_downloads and ...` skips the limit check for
them. -/
def truthyMax : Option Nat → Bool
  | none => false
  | some n => n != 0

/-- The per-item loop of `process_library` (lines 682-705).  `totalDl`
is `total_downloaded`.  When the limit check fires the loop breaks,
assigning `skipped := remaining item count` (line 685). -/
def processItems (maxD : Option Nat) : List LibItem → Nat → LibStats → LibStats
  | [], _, stats => stats
  | it :: rest, totalDl, stats =>
    if truthyMax maxD && decide (maxD.getD 0 ≤ totalDl) then
      { stats with skipped := rest.length + 1 }
    else
      match it.outcome with
      | .error _ => processItems maxD rest totalDl { stats with errors := stats.errors + 1 }
      | .ok none => processItems maxD rest totalDl stats
      | .ok (some n) =>
        let stats' := { stats with needs := stats.needs + 1 }
        if 0 < n then
          processItems maxD rest (totalDl + n) { stats' with downloaded := stats'.downloaded + n }
        else processItems maxD rest totalDl stats'

/-- `process_library` after the library lookup and item enumeration:
counters start at zero with `total := len(items)`. -/
def processLibrary (items : List LibItem) (maxD : Option Nat) : LibStats :=
  processItems maxD items 0 ⟨items.length, 0, 0, 0, 0⟩

def addStats (a b : LibStats) : LibStats :=
  ⟨a.total + b.total, a.needs + b.needs, a.downloaded + b.downloaded,
    a.errors + b.errors, a.skipped + b.skipped⟩

/-- The library loop of `process_all_libraries` (lines 734-750):
libraries are processed in order, each receiving the remaining budget
`max_downloads - total_downloaded`; a library is skipped entirely
(`continue`) once that remainder is non-positive; after each library
`total_downloaded` is refreshed from the aggregated `downloaded`
counter. -/
def processAllItems (maxD : Option Nat) : List (List LibItem) → Nat → LibStats → LibStats
  | [], _, acc => acc
  | lib :: libs, totalDl, acc =>
    if truthyMax maxD then
      let m := maxD.getD 0
      if m ≤ totalDl then processAllItems maxD libs totalDl acc
      else
        let acc' := addStats acc (processLibrary lib (some (m - totalDl)))
        processAllItems maxD libs acc'.downloaded acc'
    else
      let acc' := addStats acc (processLibrary lib none)
      processAllItems maxD libs acc'.downloaded acc'

def processAllLibraries (libs : List (List LibItem)) (maxD : Option Nat) : LibStats :=
  processAllItems maxD libs 0 ⟨0, 0, 0, 0, 0⟩

/- ## Claim C4 -/

/-- C4: for every media item with existing subtitle-language set E and
target set T, `needs_subtitles` returns exactly T − normalize(E):
membership in the result holds exactly for targets no stream
normalizes to.  `normalizeLang` lowercases, maps eng/spa/fra/deu/ita/por
to en/es/fr/de/it/pt, truncates unknown three-letter codes to their
first two characters, and is idempotent.  (The computation is a total
Lean function of its inputs — the embedding of a pure, effect-free
Python computation.) -/
theorem claim_missing_languages :
    (∀ (targets : List Str) (streams : List (Option Str)) (x : Str),
        x ∈ needsSubtitles targets streams ↔
          (x ∈ targets ∧ ∀ s : Str, some s ∈ streams → s ≠ [] → normalizeLang s ≠ x)) ∧
    (∀ s : Str, normalizeLang (normalizeLang s) = normalizeLang s) ∧
    normalizeLang "eng".data = "en".data ∧ normalizeLang "spa".data = "es".data ∧
    normalizeLang "fra".data = "fr".data ∧ normalizeLang "deu".data = "de".data ∧
    normalizeLang "ita".data = "it".data ∧ normalizeLang "por".data = "pt".data ∧
    normalizeLang "abc".data = "ab".data ∧ normalizeLang "ENG".data = "en".data := by
  refine ⟨?_, normalizeLang_idem, by decide, by decide, by decide, by decide,
    by decide, by decide, by decide, by decide⟩
  intro targets streams x
  rw [needsSubtitles, Finset.mem_sdiff, List.mem_toFinset, mem_getExistingSubtitleLanguages]
  constructor
  · rintro ⟨hx, hne⟩
    refine ⟨hx, ?_⟩
    intro s hs hnil hnorm
    exact hne ⟨s, hs, hnil, hnorm⟩
  · rintro ⟨hx, hall⟩
    refine ⟨hx, ?_⟩
    rintro ⟨s, hs, hnil, hnorm⟩
    exact hall s hs hnil hnorm

/-- C4 witness: an item whose only stream is tagged `eng` is missing
exactly `es` from targets {en, es}. -/
theorem claim_missing_languages_witness :
    "es".data ∈ needsSubtitles ["en".data, "es".data] [some "eng".data] :=
  (claim_missing_languages.1 ["en".data, "es".data] [some "eng".data] "es".data).mpr
    ⟨by decide, by
      intro s hs hnil
      rw [List.mem_singleton] at hs
      injection hs with hs
      subst hs
      decide⟩

/- ## Claim C5 -/

/-- C5 counterexample: in the API-path downloader
(`PlexSubtitleDownloader.get_existing_subtitle_languages`, the class
the pipeline actually runs), a stream with an absent language tag is
NOT included as a default language — it is discarded, so it does not
contribute to gap detection: an item whose only subtitle stream is
unlabeled still reports `en` as missing. -/
theorem claim_unlabeled_counterexample :
    getExistingSubtitleLanguages [none] = ∅ ∧
    needsSubtitles ["en".data] [none] = {"en".data} := by
  constructor <;> decide

theorem selenium_fold_mono (l : List (Option Str)) (acc : Finset Str) :
    acc ⊆ l.foldl
      (fun acc lc =>
        match lc with
        | some s => if s = [] then insert "en".data acc else insert (normalizeLang s) acc
        | none => insert "en".data acc) acc := by
  induction l generalizing acc with
  | nil => exact fun x hx => hx
  | cons hd tl ih =>
    intro x hx
    rw [List.foldl_cons]
    refine ih _ ?_
    match hd with
    | none => exact Finset.mem_insert_of_mem hx
    | some s =>
      by_cases h0 : s = []
      · simp only [if_pos h0]; exact Finset.mem_insert_of_mem hx
      · simp only [if_neg h0]; exact Finset.mem_insert_of_mem hx

/-- C5 amended: an unlabeled (tag absent) subtitle stream is discarded
by the API-path implementation — it contributes nothing to the
existing-language set or to gap detection; only the excluded
browser-automation path (`PlexSeleniumDownloader`) records such a
stream as the default language `en`. -/
theorem claim_unlabeled_amended :
    ∀ (streams : List (Option Str)) (targets : List Str),
      getExistingSubtitleLanguages (none :: streams) = getExistingSubtitleLanguages streams ∧
      needsSubtitles targets (none :: streams) = needsSubtitles targets streams ∧
      "en".data ∈ seleniumGetExistingSubtitleLanguages (none :: streams) := by
  intro streams targets
  refine ⟨rfl, rfl, ?_⟩
  exact selenium_fold_mono streams _ (Finset.mem_insert_self _ _)

/-- C5 amended witness at a concrete stream list. -/
theorem claim_unlabeled_amended_witness :
    getExistingSubtitleLanguages [none, some "spa".data] =
      getExistingSubtitleLanguages [some "spa".data] ∧
    needsSubtitles ["en".data] [none, some "spa".data] =
      needsSubtitles ["en".data] [some "spa".data] ∧
    "en".data ∈ seleniumGetExistingSubtitleLanguages [none, some "spa".data] :=
  claim_unlabeled_amended [some "spa".data] ["en".data]

/- ## Claim C2 -/

/-- C2: best-candidate selection filters to the requested language and
returns the head of the stable descending (rating, download-count)
order: the result is `none` exactly when no candidate's language
matches; a returned candidate belongs to the inputs, carries the
requested language, dominates every matching candidate in the composite
key (hence has the maximal rating), and is the first-encountered
candidate among those of maximal key — every candidate before it in the
(order-preserving) language filter has a strictly smaller key. -/
theorem claim_select_best :
    ∀ (results : List RawResult) (lang : Str),
      (selectBest results lang = none ↔ ∀ r ∈ results, ¬ (r.language = some lang)) ∧
      (∀ c : RawResult, selectBest results lang = some c →
        c ∈ results ∧ c.language = some lang ∧
        (∀ d ∈ results, d.language = some lang → keyLe d c ∧ rat d ≤ rat c) ∧
        (∃ l1 l2, results.filter (langMatches lang) = l1 ++ c :: l2 ∧
          ∀ d ∈ l1, ¬ keyLe c d)) := by
  intro results lang
  refine ⟨selectBest_eq_none_iff results lang, ?_⟩
  intro c hc
  refine ⟨selectBest_mem _ _ _ hc, selectBest_lang _ _ _ hc, ?_, selectBest_first _ _ _ hc⟩
  intro d hd hlang
  have hk := selectBest_maximal _ _ _ hc d hd hlang
  refine ⟨hk, ?_⟩
  rcases hk with h | ⟨h, _⟩
  · exact le_of_lt h
  · exact le_of_eq h

/-- C2 witness: the spec scenario — two `es` candidates with ratings
7.0 (500 downloads) and 9.0 (200 downloads); the selected candidate is
the 9.0 one regardless of download counts. -/
theorem claim_select_best_witness :
    RawResult.mk (some "es".data) (some 9) (some 200) none none (some [some 2]) ∈
      [RawResult.mk (some "es".data) (some 7) (some 500) none none (some [some 1]),
       RawResult.mk (some "es".data) (some 9) (some 200) none none (some [some 2])] ∧
    (RawResult.mk (some "es".data) (some 9) (some 200) none none (some [some 2])).language =
      some "es".data ∧
    rat (RawResult.mk (some "es".data) (some 9) (some 200) none none (some [some 2])) = 9 := by
  have h := (claim_select_best
      [RawResult.mk (some "es".data) (some 7) (some 500) none none (some [some 1]),
       RawResult.mk (some "es".data) (some 9) (some 200) none none (some [some 2])]
      "es".data).2
      (RawResult.mk (some "es".data) (some 9) (some 200) none none (some [some 2]))
      (by decide)
  exact ⟨h.1, h.2.1, rfl⟩

/- ## Claim C8 -/

theorem waitForRateLimit_grant_ge (st : RL) (d : ℚ)
    (hmin : st.min_request_interval = 1) (_hd : 0 ≤ d) :
    st.last_request_time + 1 ≤ (waitForRateLimit st (st.last_request_time + d)).1 := by
  simp only [waitForRateLimit, hmin]
  split <;> linarith

theorem runAcquires_spaced (ds : List ℚ) (st : RL)
    (hmin : st.min_request_interval = 1) (hds : ∀ d ∈ ds, 0 ≤ d) :
    SpacedBy 1 (runAcquires st ds) := by
  induction ds generalizing st with
  | nil => trivial
  | cons d ds ih =>
    have hds' : ∀ x ∈ ds, 0 ≤ x := fun x hx => hds x (List.mem_cons_of_mem _ hx)
    have hmin' : (waitForRateLimit st (st.last_request_time + d)).2.min_request_interval = 1 :=
      hmin
    cases ds with
    | nil => exact trivial
    | cons d2 ds2 =>
      refine ⟨?_, ih _ hmin' hds'⟩
      have h2 := waitForRateLimit_grant_ge
        (waitForRateLimit st (st.last_request_time + d)).2 d2 hmin'
        (hds' d2 (List.mem_cons_self _ _))
      exact h2

/-- C8: the rate limiter grants an acquire immediately (zero sleep)
when at least the minimum interval has elapsed since the last grant,
sleeps exactly the remaining deficit otherwise (so a premature call is
granted exactly at last-grant + interval), records the grant time as
the new last-request time, a single step never grants earlier than one
interval after the previous grant, and across an arbitrary tight loop
of repeated acquisitions consecutive grants stay at least the 1-second
minimum interval apart. -/
theorem claim_rate_limiter :
    (∀ (st : RL) (now : ℚ), st.min_request_interval ≤ now - st.last_request_time →
        (waitForRateLimit st now).1 = now) ∧
    (∀ (st : RL) (now : ℚ), now - st.last_request_time < st.min_request_interval →
        (waitForRateLimit st now).1 = st.last_request_time + st.min_request_interval) ∧
    (∀ (st : RL) (now : ℚ),
        (waitForRateLimit st now).2.last_request_time = (waitForRateLimit st now).1) ∧
    (∀ (st : RL) (d : ℚ), st.min_request_interval = 1 → 0 ≤ d →
        st.last_request_time + 1 ≤ (waitForRateLimit st (st.last_request_time + d)).1) ∧
    (∀ (st : RL) (ds : List ℚ), st.min_request_interval = 1 → (∀ d ∈ ds, 0 ≤ d) →
        SpacedBy 1 (runAcquires st ds)) := by
  refine ⟨?_, ?_, ?_, waitForRateLimit_grant_ge, fun st ds h1 h2 => runAcquires_spaced ds st h1 h2⟩
  · intro st now h
    simp only [waitForRateLimit]
    split <;> linarith
  · intro st now h
    simp only [waitForRateLimit]
    split
    · ring
    · linarith
  · intro st now
    rfl

/-- C8 witness: limiter with interval 1, last grant at time 0; a call
at time 1/2 is granted exactly at time 1, and a tight loop of two
immediate re-acquisitions yields grants at least 1 second apart. -/
theorem claim_rate_limiter_witness :
    (waitForRateLimit ⟨0, 1⟩ (1/2)).1 = 0 + 1 ∧
    SpacedBy 1 (runAcquires ⟨0, 1⟩ [0, 0]) :=
  ⟨claim_rate_limiter.2.1 ⟨0, 1⟩ (1/2) (by norm_num),
   claim_rate_limiter.2.2.2.2 ⟨0, 1⟩ [0, 0] rfl (by decide)⟩

/- ## Claim C9 -/

/-- C9 counterexample: with an explicit budget of 0 the claim demands
that no download be initiated (the count, 0, has already reached the
budget) and the item be counted skipped — but `if max_downloads and
...` treats 0 as falsy, so the limit is ignored: the single item is
downloaded and nothing is skipped. -/
theorem claim_budget_counterexample :
    (processLibrary [⟨Except.ok (some 1)⟩] (some 0)).downloaded = 1 ∧
    (processLibrary [⟨Except.ok (some 1)⟩] (some 0)).skipped = 0 := by
  constructor <;> rfl

/-- C9 amended: for every positive budget the driver initiates no new
downloads once the running download total has reached the budget —
the remaining items (beginning with the next item considered) are not
attempted and are counted as skipped — and the all-libraries variant
skips a whole library (processing none of its items) once the carried
total has reached the budget; in the spec scenario (budget 1, two
items each missing one language and downloading one subtitle) exactly
the first item's subtitle is downloaded and the second item is counted
skipped.  A budget of 0 — like `None` — is falsy and disables the
limit entirely. -/
theorem claim_budget_amended :
    (∀ (b totalDl : Nat) (it : LibItem) (rest : List LibItem) (stats : LibStats),
        1 ≤ b → b ≤ totalDl →
        processItems (some b) (it :: rest) totalDl stats =
          { stats with skipped := rest.length + 1 }) ∧
    (processLibrary [⟨Except.ok (some 1)⟩, ⟨Except.ok (some 1)⟩] (some 1) =
      ⟨2, 1, 1, 0, 1⟩) ∧
    (∀ (b totalDl : Nat) (lib : List LibItem) (libs : List (List LibItem)) (acc : LibStats),
        1 ≤ b → b ≤ totalDl →
        processAllItems (some b) (lib :: libs) totalDl acc =
          processAllItems (some b) libs totalDl acc) ∧
    (∀ (items : List LibItem) (maxD : Option Nat), truthyMax maxD = false →
        processLibrary items maxD = processLibrary items none) := by
  refine ⟨?_, rfl, ?_, ?_⟩
  · intro b totalDl it rest stats hb hle
    have ht : truthyMax (some b) = true := by
      simp [truthyMax]; omega
    simp only [processItems, ht, Option.getD_some, Bool.true_and]
    rw [if_pos (by exact decide_eq_true hle)]
  · intro b totalDl lib libs acc hb hle
    have ht : truthyMax (some b) = true := by
      simp [truthyMax]; omega
    simp only [processAllItems, ht, if_pos, Option.getD_some]
    rw [if_pos hle]
  · intro items maxD ht
    have general : ∀ (l : List LibItem) (totalDl : Nat) (stats : LibStats),
        processItems maxD l totalDl stats = processItems none l totalDl stats := by
      intro l
      induction l with
      | nil => intro totalDl stats; rfl
      | cons it rest ih =>
        intro totalDl stats
        simp only [processItems, ht, Bool.false_and, Bool.and_self, if_neg (by simp : ¬ false = true)]
        match it.outcome with
        | .error _ => exact ih _ _
        | .ok none => exact ih _ _
        | .ok (some n) =>
          by_cases hn : 0 < n
          · simp only [if_pos hn]; exact ih _ _
          · simp only [if_neg hn]; exact ih _ _
    exact general items 0 _

/-- C9 amended witness: once the total (1) has reached the budget (1),
a remaining item is skipped without being attempted. -/
theorem claim_budget_amended_witness :
    processItems (some 1) [⟨Except.ok (some 1)⟩] 1 ⟨2, 1, 1, 0, 0⟩ =
      ⟨2, 1, 1, 0, 1⟩ :=
  claim_budget_amended.1 1 1 ⟨Except.ok (some 1)⟩ [] ⟨2, 1, 1, 0, 0⟩
    (by decide) (by decide)

/- ## Claim C10 -/

/-- C10: when the download-initiation POST answers 200 but the body
carries no `link`, `download_subtitle` returns failure (`None`)
without issuing the second fetch (the trace ends at the POST — no
`fileGet` event, and the file-response queue is untouched), yet the
tracked quota is still refreshed from that response's `remaining`
metadata (`data.get('remaining', old)`). -/
theorem claim_no_link :
    ∀ (hasCreds : Bool) (fid fuel : Nat) (t : Str) (q rem : Option Int) (ra : Option Nat)
      (lr : List LoginResp) (rest : List DlResp) (fr : List FileResp) (sr : List SearchResp),
      quotaExhausted q = false →
      downloadSubtitle hasCreds fid (fuel + 1) ⟨some t, q⟩
          ⟨lr, DlResp.resp 200 none rem ra :: rest, fr, sr⟩ =
        (none, ⟨some t, newQuota rem q⟩, ⟨lr, rest, fr, sr⟩,
          [Event.acquire, Event.downloadPost]) := by
  intro hasCreds fid fuel t q rem ra lr rest fr sr hq
  simp [downloadSubtitle, downloadCoreWith, downloadStatusChain, withEvents, Env.popDl, hq]

/-- C10 witness: provider reports 3 remaining downloads but omits the
link; the call fails, consumes one POST response, performs no file GET,
and the quota becomes 3. -/
theorem claim_no_link_witness :
    downloadSubtitle true 1 1 ⟨some "t".data, none⟩
        ⟨[], [DlResp.resp 200 none (some 3) none], [FileResp.resp 200 [1]], []⟩ =
      (none, ⟨some "t".data, some 3⟩, ⟨[], [], [FileResp.resp 200 [1]], []⟩,
        [Event.acquire, Event.downloadPost]) :=
  claim_no_link true 1 0 "t".data none (some 3) none [] [] [FileResp.resp 200 [1]] [] rfl

/- ## Claim C1 -/

/-- C1 counterexample: the claim says a second `Unauthorized` is a
terminal failure with no further re-login/retry cycles.  On the trace
401, 401, 200 (with both re-logins succeeding) the code instead
re-logs in twice and succeeds at the third attempt: lines 294-300
recurse into the whole method with no retry counter. -/
theorem claim_relogin_counterexample :
    (downloadSubtitle true 1 3 ⟨some "t0".data, none⟩
        ⟨[LoginResp.resp 200 (some "t1".data), LoginResp.resp 200 (some "t2".data)],
          [DlResp.resp 401 none none none, DlResp.resp 401 none none none,
            DlResp.resp 200 (some "L".data) (some 7) none],
          [FileResp.resp 200 [1, 2, 3]], []⟩).1 = some [1, 2, 3] ∧
    (downloadSubtitle true 1 3 ⟨some "t0".data, none⟩
        ⟨[LoginResp.resp 200 (some "t1".data), LoginResp.resp 200 (some "t2".data)],
          [DlResp.resp 401 none none none, DlResp.resp 401 none none none,
            DlResp.resp 200 (some "L".data) (some 7) none],
          [FileResp.resp 200 [1, 2, 3]], []⟩).2.2.2.count Event.loginPost = 2 := by
  constructor <;> rfl

/-- C1 amended: on `Unauthorized` the client invalidates the stored
token and performs a fresh login; if that login fails the call is a
terminal failure, but if it succeeds the client re-enters the whole
download call — so the re-login/retry cycle repeats for every further
`Unauthorized` as long as re-login keeps succeeding (there is no
retry cap; a second `Unauthorized` is terminal only when its re-login
fails). -/
theorem claim_relogin_amended :
    ∀ (hasCreds : Bool) (fid fuel : Nat) (t : Str) (q : Option Int)
      (l : Option Str) (rem : Option Int) (ra : Option Nat)
      (lr : List LoginResp) (rest : List DlResp) (fr : List FileResp) (sr : List SearchResp)
      (b : Bool) (st3 : ApiState) (env4 : Env) (ev5 : List Event),
      quotaExhausted q = false →
      login hasCreds ⟨none, q⟩ ⟨lr, rest, fr, sr⟩ = (b, st3, env4, ev5) →
      downloadSubtitle hasCreds fid (fuel + 1) ⟨some t, q⟩
          ⟨lr, DlResp.resp 401 l rem ra :: rest, fr, sr⟩ =
        if b then
          ((downloadSubtitle hasCreds fid fuel st3 env4).1,
            (downloadSubtitle hasCreds fid fuel st3 env4).2.1,
            (downloadSubtitle hasCreds fid fuel st3 env4).2.2.1,
            [Event.acquire, Event.downloadPost] ++ ev5 ++
              (downloadSubtitle hasCreds fid fuel st3 env4).2.2.2)
        else (none, st3, env4, [Event.acquire, Event.downloadPost] ++ ev5) := by
  intro hasCreds fid fuel t q l rem ra lr rest fr sr b st3 env4 ev5 hq hl
  simp only [downloadSubtitle, downloadCoreWith, Env.popDl, List.head?, List.tail_cons, hq,
    Bool.false_eq_true, if_false]
  rw [if_neg (by simp : ¬ ((401 : Nat) = 429 ∧ ra.isSome = true))]
  simp only [downloadStatusChain]
  have h200 : ((401 : Nat) = 200) = False := by simp
  have h401 : ((401 : Nat) = 401) = True := by simp
  simp only [h200, h401, if_false, if_true]
  rw [hl]
  cases b with
  | false => rfl
  | true =>
    rcases hds : downloadSubtitle hasCreds fid fuel st3 env4 with ⟨res, st4, env5, ev6⟩
    simp [withEvents, hds]

/-- C1 amended witness: without credentials the re-login fails, so a
single 401 is terminal. -/
theorem claim_relogin_amended_witness :
    downloadSubtitle false 1 1 ⟨some "t".data, none⟩
        ⟨[], [DlResp.resp 401 none none none], [], []⟩ =
      (none, ⟨none, none⟩, ⟨[], [], [], []⟩, [Event.acquire, Event.downloadPost]) := by
  have h := claim_relogin_amended false 1 0 "t".data none none none none
    [] [] [] [] false ⟨none, none⟩ ⟨[], [], [], []⟩ [] rfl rfl
  simpa using h

/- ## Client invariants and trace discipline -/

/-- A well-formed provider: a 200 login response always carries a
token (the code stores `data.get('token')` without checking). -/
def EnvWfLogin (env : Env) : Prop :=
  ∀ tok : Option Str, LoginResp.resp 200 tok ∈ env.loginResps → tok ≠ none

/-- The reachable-state invariant of the client: whenever the tracked
quota is known and exhausted, a session token is present.  It holds of
the freshly constructed client (`jwt_token = None`,
`remaining_downloads = None`) and is preserved by `download_subtitle`
against any well-formed provider. -/
def Inv (st : ApiState) : Prop :=
  ∀ q : Int, st.remaining_downloads = some q → q ≤ 0 → st.jwt_token ≠ none

/-- A trace that respects the adjacency discipline and starts (if
nonempty) with a rate-limiter acquire. -/
def GoodTrace (evs : List Event) : Prop :=
  adjOkFrom none evs = true ∧ (evs = [] ∨ evs.head? = some Event.acquire)

theorem adjOkFrom_head_acquire (p : Option Event) (evs : List Event)
    (hh : evs = [] ∨ evs.head? = some Event.acquire) (h : adjOkFrom none evs = true) :
    adjOkFrom p evs = true := by
  rcases hh with h0 | hh
  · subst h0; rfl
  · cases evs with
    | nil => rfl
    | cons e rest =>
      simp only [List.head?] at hh
      injection hh with hh
      subst hh
      simpa [adjOkFrom, stepOk] using h

theorem GoodTrace_nil : GoodTrace [] := ⟨rfl, Or.inl rfl⟩

theorem GoodTrace_append (xs ys : List Event) (hx : GoodTrace xs) (hy : GoodTrace ys) :
    GoodTrace (xs ++ ys) := by
  obtain ⟨hax, hhx⟩ := hx
  obtain ⟨hay, hhy⟩ := hy
  constructor
  · rw [adjOkFrom_append, hax, Bool.true_and]
    exact adjOkFrom_head_acquire _ _ hhy hay
  · rcases hhx with h0 | hh
    · subst h0; simpa using hhy
    · cases xs with
      | nil => simpa using hhy
      | cons e rest =>
        right
        simp only [List.head?] at hh ⊢
        simpa using hh

/-- State, environment and trace facts about `login`, in every case:
it never touches the quota, the download/file queues, only pops from
the login queue, and its trace is empty or `[acquire, loginPost]`. -/
theorem login_preserves (hasCreds : Bool) (st : ApiState) (env : Env) :
    (login hasCreds st env).2.1.remaining_downloads = st.remaining_downloads ∧
    (login hasCreds st env).2.2.1.dlResps = env.dlResps ∧
    (∀ r, r ∈ (login hasCreds st env).2.2.1.loginResps → r ∈ env.loginResps) ∧
    (login hasCreds st env).2.2.1.fileResps = env.fileResps ∧
    ((login hasCreds st env).2.2.2 = [] ∨
      (login hasCreds st env).2.2.2 = [Event.acquire, Event.loginPost]) := by
  cases hasCreds with
  | false => exact ⟨rfl, rfl, fun r h => h, rfl, Or.inl rfl⟩
  | true =>
    have hup : ∀ x, x ∈ env.loginResps.tail → x ∈ env.loginResps := fun x hx =>
      List.tail_subset _ hx
    simp only [login, Env.popLogin, if_true]
    match henv : env.loginResps.head? with
    | none => exact ⟨rfl, rfl, hup, rfl, Or.inr rfl⟩
    | some LoginResp.exn => exact ⟨rfl, rfl, hup, rfl, Or.inr rfl⟩
    | some (LoginResp.resp status token) =>
      dsimp only
      by_cases h200 : status = 200
      · rw [if_pos h200]
        exact ⟨rfl, rfl, hup, rfl, Or.inr rfl⟩
      · rw [if_neg h200]
        exact ⟨rfl, rfl, hup, rfl, Or.inr rfl⟩

theorem login_false_state (hasCreds : Bool) (st : ApiState) (env : Env)
    (h : (login hasCreds st env).1 = false) : (login hasCreds st env).2.1 = st := by
  cases hasCreds with
  | false => rfl
  | true =>
    simp only [login, Env.popLogin, if_true] at h ⊢
    match henv : env.loginResps.head?, h with
    | none, _ => rfl
    | some LoginResp.exn, _ => rfl
    | some (LoginResp.resp status token), h =>
      dsimp only at h ⊢
      by_cases h200 : status = 200
      · rw [if_pos h200] at h; exact absurd h (by simp)
      · rw [if_neg h200]

theorem login_true_token (hasCreds : Bool) (st : ApiState) (env : Env)
    (h : (login hasCreds st env).1 = true) :
    ∃ tokv : Option Str, LoginResp.resp 200 tokv ∈ env.loginResps ∧
      (login hasCreds st env).2.1.jwt_token = tokv := by
  cases hasCreds with
  | false => exact absurd h (by simp [login])
  | true =>
    simp only [login, Env.popLogin, if_true] at h ⊢
    match henv : env.loginResps.head?, h with
    | none, h => exact absurd h (by simp)
    | some LoginResp.exn, h => exact absurd h (by simp)
    | some (LoginResp.resp status token), h =>
      dsimp only at h ⊢
      by_cases h200 : status = 200
      · subst h200
        refine ⟨token, ?_, ?_⟩
        · exact List.mem_of_mem_head? henv
        · rw [if_pos rfl]
      · rw [if_neg h200] at h; exact absurd h (by simp)

/-- The three run-properties of a `download_subtitle` call from state
`st` against environment `env`: the trace obeys the acquire/request
adjacency discipline and opens with an acquire; and — against a
well-formed provider, from an invariant state — the invariant is
preserved and the tracked quota either is untouched or takes exactly a
value reported in a 200 download response of this environment (it is
never computed locally). -/
def DlProps (st : ApiState) (env : Env)
    (r : Option (List Nat) × ApiState × Env × List Event) : Prop :=
  GoodTrace r.2.2.2 ∧
  (EnvWfLogin env → Inv st →
    Inv r.2.1 ∧
    (r.2.1.remaining_downloads = st.remaining_downloads ∨
      ∃ v : Int, r.2.1.remaining_downloads = some v ∧
        ∃ l ra, DlResp.resp 200 l (some v) ra ∈ env.dlResps))

theorem downloadStatusChain_props (hasCreds : Bool) (st1 : ApiState) (resp? : Option DlResp)
    (env3 : Env)
    (recur : ApiState → Env → Option (List Nat) × ApiState × Env × List Event)
    (hrec : ∀ st' env', DlProps st' env' (recur st' env')) :
    adjOkFrom (some Event.downloadPost)
        (downloadStatusChain hasCreds st1 resp? env3 recur).2.2.2 = true ∧
    (EnvWfLogin env3 → st1.jwt_token ≠ none →
      quotaExhausted st1.remaining_downloads = false →
      Inv (downloadStatusChain hasCreds st1 resp? env3 recur).2.1 ∧
      ((downloadStatusChain hasCreds st1 resp? env3 recur).2.1.remaining_downloads
          = st1.remaining_downloads ∨
        ∃ v : Int,
          (downloadStatusChain hasCreds st1 resp? env3 recur).2.1.remaining_downloads
            = some v ∧
          ((∃ l ra, resp? = some (DlResp.resp 200 l (some v) ra)) ∨
            ∃ l ra, DlResp.resp 200 l (some v) ra ∈ env3.dlResps))) := by
  cases resp? with
  | none => exact ⟨rfl, fun _ htok _ => ⟨fun _ _ _ => htok, Or.inl rfl⟩⟩
  | some r0 =>
    cases r0 with
    | exn => exact ⟨rfl, fun _ htok _ => ⟨fun _ _ _ => htok, Or.inl rfl⟩⟩
    | resp status link remaining ra0 =>
      by_cases h200 : status = 200
      · subst h200
        have hquota :
            newQuota remaining st1.remaining_downloads = st1.remaining_downloads ∨
            ∃ v : Int, newQuota remaining st1.remaining_downloads = some v ∧
              ((∃ l ra, (some (DlResp.resp 200 link (some v) ra) : Option DlResp) =
                  some (DlResp.resp 200 l (some v) ra)) ∧ remaining = some v) := by
          cases remaining with
          | none => exact Or.inl rfl
          | some v => exact Or.inr ⟨v, rfl, ⟨link, ra0, rfl⟩, rfl⟩
        cases link with
        | none =>
          unfold downloadStatusChain
          dsimp only
          rw [if_pos rfl]
          refine ⟨rfl, fun hwf htok hqf => ⟨fun _ _ _ => htok, ?_⟩⟩
          rcases hquota with h | ⟨v, hv, _, hrem⟩
          · exact Or.inl h
          · exact Or.inr ⟨v, hv, Or.inl ⟨none, ra0, by rw [hrem]⟩⟩
        | some lk =>
          unfold downloadStatusChain
          dsimp only
          rw [if_pos rfl]
          split
          · refine ⟨rfl, fun hwf htok hqf => ⟨fun _ _ _ => htok, ?_⟩⟩
            rcases hquota with h | ⟨v, hv, _, hrem⟩
            · exact Or.inl h
            · exact Or.inr ⟨v, hv, Or.inl ⟨some lk, ra0, by rw [hrem]⟩⟩
          · refine ⟨rfl, fun hwf htok hqf => ⟨fun _ _ _ => htok, ?_⟩⟩
            rcases hquota with h | ⟨v, hv, _, hrem⟩
            · exact Or.inl h
            · exact Or.inr ⟨v, hv, Or.inl ⟨some lk, ra0, by rw [hrem]⟩⟩
      · by_cases h401 : status = 401
        · subst h401
          unfold downloadStatusChain
          dsimp only
          rw [if_neg h200, if_pos rfl]
          rcases hlg : login hasCreds { st1 with jwt_token := none } env3 with ⟨b, st3, env4, ev5⟩
          have hev := (login_preserves hasCreds { st1 with jwt_token := none } env3).2.2.2.2
          rw [hlg] at hev
          have hrem3 := (login_preserves hasCreds { st1 with jwt_token := none } env3).1
          rw [hlg] at hrem3
          have hdl4 := (login_preserves hasCreds { st1 with jwt_token := none } env3).2.1
          rw [hlg] at hdl4
          have hsub := (login_preserves hasCreds { st1 with jwt_token := none } env3).2.2.1
          rw [hlg] at hsub
          cases b with
          | false =>
            dsimp only at hev hrem3 hdl4 hsub ⊢
            have hst3 : st3 = { st1 with jwt_token := none } := by
              have h := login_false_state hasCreds { st1 with jwt_token := none } env3
                (by rw [hlg])
              rw [hlg] at h
              exact h
            constructor
            · rcases hev with h | h <;> rw [h] <;> decide
            · intro hwf htok hqf
              constructor
              · intro q hqq hle
                exfalso
                rw [hst3] at hqq
                have hq1 : st1.remaining_downloads = some q := hqq
                rw [hq1] at hqf
                simp only [quotaExhausted, decide_eq_false_iff_not] at hqf
                exact hqf hle
              · rw [hst3]
                exact Or.inl rfl
          | true =>
            dsimp only at hev hrem3 hdl4 hsub ⊢
            rcases hr : recur st3 env4 with ⟨res, st4, env5, ev6⟩
            have hrecp := hrec st3 env4
            rw [hr] at hrecp
            have hg6 : GoodTrace ev6 := hrecp.1
            constructor
            · rw [adjOkFrom_append]
              rcases hev with h | h <;> subst h
              · simp only [adjOkFrom, lastO, Bool.true_and]
                exact adjOkFrom_head_acquire _ _ hg6.2 hg6.1
              · simp only [adjOkFrom, lastO, stepOk, Bool.true_and, Bool.and_true]
                exact adjOkFrom_head_acquire _ _ hg6.2 hg6.1
            · intro hwf htok hqf
              have hwf4 : EnvWfLogin env4 := fun tok hm => hwf tok (hsub _ hm)
              have htok3 := login_true_token hasCreds { st1 with jwt_token := none } env3
                (by rw [hlg])
              rw [hlg] at htok3
              obtain ⟨tokv, hmem, htokeq⟩ := htok3
              dsimp only at htokeq
              have htok3' : st3.jwt_token ≠ none := by
                rw [htokeq]
                exact hwf tokv hmem
              have hp := hrecp.2 hwf4 (fun _ _ _ => htok3')
              dsimp only at hp
              refine ⟨hp.1, ?_⟩
              rcases hp.2 with h | ⟨v, hv, l', ra', hmem'⟩
              · exact Or.inl (by rw [h, hrem3])
              · exact Or.inr ⟨v, hv, Or.inr ⟨l', ra', by rw [← hdl4]; exact hmem'⟩⟩
        · unfold downloadStatusChain
          dsimp only
          rw [if_neg h200, if_neg h401]
          exact ⟨rfl, fun _ htok _ => ⟨fun _ _ _ => htok, Or.inl rfl⟩⟩

theorem core_glue (hasCreds : Bool) (st1 : ApiState) (env1 : Env)
    (recur : ApiState → Env → Option (List Nat) × ApiState × Env × List Event)
    (hrec : ∀ st' env', DlProps st' env' (recur st' env'))
    (pre : List Event) (resp? : Option DlResp) (env3 : Env)
    (hpre1 : adjOkFrom none pre = true)
    (hpre2 : pre.head? = some Event.acquire)
    (hpre3 : lastO none pre = some Event.downloadPost)
    (hlr : env3.loginResps = env1.loginResps)
    (hdl : ∀ x, x ∈ env3.dlResps → x ∈ env1.dlResps)
    (hresp : ∀ r, resp? = some r → r ∈ env1.dlResps)
    (hq : quotaExhausted st1.remaining_downloads = false) :
    GoodTrace (withEvents pre (downloadStatusChain hasCreds st1 resp? env3 recur)).2.2.2 ∧
    (EnvWfLogin env1 → st1.jwt_token ≠ none →
      Inv (withEvents pre (downloadStatusChain hasCreds st1 resp? env3 recur)).2.1 ∧
      ((withEvents pre (downloadStatusChain hasCreds st1 resp? env3 recur)).2.1.remaining_downloads
          = st1.remaining_downloads ∨
        ∃ v : Int,
          (withEvents pre
              (downloadStatusChain hasCreds st1 resp? env3 recur)).2.1.remaining_downloads
            = some v ∧
          ∃ l ra, DlResp.resp 200 l (some v) ra ∈ env1.dlResps)) := by
  have hch := downloadStatusChain_props hasCreds st1 resp? env3 recur hrec
  constructor
  · constructor
    · show adjOkFrom none (pre ++ _) = true
      rw [adjOkFrom_append, hpre1, hpre3, Bool.true_and]
      exact hch.1
    · right
      cases hp0 : pre with
      | nil => rw [hp0] at hpre2; exact absurd hpre2 (by simp)
      | cons e t =>
        rw [hp0] at hpre2
        simp only [List.head?] at hpre2
        show (e :: (t ++ _)).head? = some Event.acquire
        simpa using hpre2
  · intro hwf htok
    have hwf3 : EnvWfLogin env3 := by
      intro tok hm
      exact hwf tok (by rw [← hlr]; exact hm)
    have hp := hch.2 hwf3 htok hq
    refine ⟨hp.1, ?_⟩
    rcases hp.2 with h | ⟨v, hv, hsrc⟩
    · exact Or.inl h
    · refine Or.inr ⟨v, hv, ?_⟩
      rcases hsrc with ⟨l, ra, hform⟩ | ⟨l, ra, hmem⟩
      · exact ⟨l, ra, hresp _ hform⟩
      · exact ⟨l, ra, hdl _ hmem⟩

theorem downloadCoreWith_props (hasCreds : Bool) (st1 : ApiState) (env1 : Env)
    (recur : ApiState → Env → Option (List Nat) × ApiState × Env × List Event)
    (hrec : ∀ st' env', DlProps st' env' (recur st' env')) :
    GoodTrace (downloadCoreWith hasCreds st1 env1 recur).2.2.2 ∧
    (EnvWfLogin env1 → st1.jwt_token ≠ none →
      Inv (downloadCoreWith hasCreds st1 env1 recur).2.1 ∧
      ((downloadCoreWith hasCreds st1 env1 recur).2.1.remaining_downloads
          = st1.remaining_downloads ∨
        ∃ v : Int,
          (downloadCoreWith hasCreds st1 env1 recur).2.1.remaining_downloads = some v ∧
          ∃ l ra, DlResp.resp 200 l (some v) ra ∈ env1.dlResps)) := by
  unfold downloadCoreWith
  by_cases hqe : quotaExhausted st1.remaining_downloads = true
  · rw [if_pos hqe]
    exact ⟨GoodTrace_nil, fun _ htok => ⟨fun _ _ _ => htok, Or.inl rfl⟩⟩
  · have hqf : quotaExhausted st1.remaining_downloads = false := by
      cases h : quotaExhausted st1.remaining_downloads
      · rfl
      · exact absurd h hqe
    rw [if_neg hqe]
    have htail : ∀ x, x ∈ ((env1.popDl).2).dlResps → x ∈ env1.dlResps := by
      intro x hx
      exact List.tail_subset _ hx
    rcases hr0 : (env1.popDl).1 with _ | r
    · dsimp only
      exact core_glue hasCreds st1 env1 recur hrec _ none _ (by decide) rfl rfl rfl htail
        (fun r h => absurd h (by simp)) hqf
    · cases r with
      | exn =>
        dsimp only
        refine core_glue hasCreds st1 env1 recur hrec _ (some DlResp.exn) _ (by decide)
          rfl rfl rfl htail ?_ hqf
        intro r h
        injection h with h
        subst h
        exact List.mem_of_mem_head? (show env1.dlResps.head? = some DlResp.exn from hr0)
      | resp rstatus rlink rrem rra =>
        dsimp only
        by_cases h429 : rstatus = 429 ∧ rra.isSome = true
        · rw [if_pos h429]
          refine core_glue hasCreds st1 env1 recur hrec _ _ _ (by decide) rfl rfl rfl ?_ ?_ hqf
          · intro x hx
            exact htail x (List.tail_subset _ hx)
          · intro r h
            exact htail r (List.mem_of_mem_head?
              (show ((env1.popDl).2).dlResps.head? = some r from h))
        · rw [if_neg h429]
          refine core_glue hasCreds st1 env1 recur hrec _ _ _ (by decide) rfl rfl rfl htail ?_ hqf
          intro r h
          injection h with h
          subst h
          exact List.mem_of_mem_head?
            (show env1.dlResps.head? = some (DlResp.resp rstatus rlink rrem rra) from hr0)

theorem downloadSubtitle_props (hasCreds : Bool) (fid : Nat) :
    ∀ (fuel : Nat) (st : ApiState) (env : Env),
      DlProps st env (downloadSubtitle hasCreds fid fuel st env) := by
  intro fuel
  induction fuel with
  | zero =>
    intro st env
    exact ⟨GoodTrace_nil, fun _ hinv => ⟨hinv, Or.inl rfl⟩⟩
  | succ fuel ih =>
    intro st env
    obtain ⟨tok, rem⟩ := st
    cases tok with
    | some t =>
      have hcore := downloadCoreWith_props hasCreds ⟨some t, rem⟩ env
        (fun st' env' => downloadSubtitle hasCreds fid fuel st' env')
        (fun st' env' => ih st' env')
      refine ⟨hcore.1, fun hwf _ => ?_⟩
      exact hcore.2 hwf (by simp)
    | none =>
      simp only [downloadSubtitle]
      rcases hlg : login hasCreds ⟨none, rem⟩ env with ⟨b, st1, env1, ev1⟩
      have hev := (login_preserves hasCreds ⟨none, rem⟩ env).2.2.2.2
      rw [hlg] at hev
      have hrem1 := (login_preserves hasCreds ⟨none, rem⟩ env).1
      rw [hlg] at hrem1
      have hdl1 := (login_preserves hasCreds ⟨none, rem⟩ env).2.1
      rw [hlg] at hdl1
      have hsub := (login_preserves hasCreds ⟨none, rem⟩ env).2.2.1
      rw [hlg] at hsub
      dsimp only at hev hrem1 hdl1 hsub
      cases b with
      | false =>
        dsimp only
        have hst1 : st1 = ⟨none, rem⟩ := by
          have h := login_false_state hasCreds ⟨none, rem⟩ env (by rw [hlg])
          rw [hlg] at h
          exact h
        constructor
        · rcases hev with h | h <;> rw [h]
          · exact GoodTrace_nil
          · exact ⟨rfl, Or.inr rfl⟩
        · intro hwf hinv
          rw [hst1]
          exact ⟨hinv, Or.inl rfl⟩
      | true =>
        dsimp only
        have hcore := downloadCoreWith_props hasCreds st1 env1
          (fun st' env' => downloadSubtitle hasCreds fid fuel st' env')
          (fun st' env' => ih st' env')
        constructor
        · show GoodTrace (ev1 ++ _)
          refine GoodTrace_append _ _ ?_ hcore.1
          rcases hev with h | h <;> rw [h]
          · exact GoodTrace_nil
          · exact ⟨rfl, Or.inr rfl⟩
        · intro hwf hinv
          have hwf1 : EnvWfLogin env1 := fun tokv hm => hwf tokv (hsub _ hm)
          have htok1 := login_true_token hasCreds ⟨none, rem⟩ env (by rw [hlg])
          rw [hlg] at htok1
          obtain ⟨tokv, hmem, htokeq⟩ := htok1
          dsimp only at htokeq
          have htok1' : st1.jwt_token ≠ none := by
            rw [htokeq]
            exact hwf tokv hmem
          have hp := hcore.2 hwf1 htok1'
          refine ⟨hp.1, ?_⟩
          rcases hp.2 with h | ⟨v, hv, l, ra, hmem'⟩
          · refine Or.inl ?_
            show (downloadCoreWith hasCreds st1 env1 _).2.1.remaining_downloads = _
            rw [h, hrem1]
          · refine Or.inr ⟨v, ?_, l, ra, by rw [← hdl1]; exact hmem'⟩
            show (downloadCoreWith hasCreds st1 env1 _).2.1.remaining_downloads = some v
            exact hv

theorem searchFinish_events (r? : Option SearchResp) (ev : List Event) (env2 : Env) :
    (searchFinish r? ev env2).2.2 = ev := by
  cases r? with
  | none => rfl
  | some r =>
    cases r with
    | exn => rfl
    | resp status ra d =>
      unfold searchFinish
      dsimp only
      by_cases h200 : status = 200
      · rw [if_pos h200]
      · rw [if_neg h200]
        by_cases h401 : status = 401
        · rw [if_pos h401]
        · rw [if_neg h401]
          by_cases h406 : status = 406
          · rw [if_pos h406]
          · rw [if_neg h406]

theorem searchSubtitles_events (env : Env) :
    (searchSubtitles env).2.2 = [Event.acquire, Event.searchGet] ∨
    (searchSubtitles env).2.2 = [Event.acquire, Event.searchGet, Event.searchGet] := by
  unfold searchSubtitles
  rcases hr : (env.popSearch).1 with _ | r
  · exact Or.inl (searchFinish_events _ _ _)
  · cases r with
    | exn => exact Or.inl (searchFinish_events _ _ _)
    | resp s1 ra1 d1 =>
      dsimp only
      by_cases h429 : s1 = 429 ∧ ra1.isSome = true
      · rw [if_pos h429]
        exact Or.inr (searchFinish_events _ _ _)
      · rw [if_neg h429]
        exact Or.inl (searchFinish_events _ _ _)

/-- The quota fail-fast of `download_subtitle` (line 252): from any
state satisfying the invariant whose tracked quota is known-exhausted,
the call fails immediately — state and environment untouched, no
events, in particular no network request of any kind. -/
theorem downloadSubtitle_failfast (hasCreds : Bool) (fid fuel : Nat) (st : ApiState)
    (env : Env) (hinv : Inv st) (hq : quotaExhausted st.remaining_downloads = true) :
    downloadSubtitle hasCreds fid (fuel + 1) st env = (none, st, env, []) := by
  obtain ⟨tok, rem⟩ := st
  cases tok with
  | some t => simp [downloadSubtitle, downloadCoreWith, hq]
  | none =>
    exfalso
    cases hrem : rem with
    | none =>
      rw [hrem] at hq
      simp [quotaExhausted] at hq
    | some qv =>
      have hle : qv ≤ 0 := by
        rw [hrem] at hq
        simpa [quotaExhausted] using hq
      exact (hinv qv (by rw [hrem]) hle) rfl

theorem downloadStatusChain_success_quota (hasCreds : Bool) (st1 : ApiState)
    (resp? : Option DlResp) (env3 : Env)
    (recur : ApiState → Env → Option (List Nat) × ApiState × Env × List Event)
    (hrec : ∀ (st' : ApiState) (env' : Env) (bytes : List Nat),
      (recur st' env').1 = some bytes →
      ∃ lk rem ra, DlResp.resp 200 (some lk) rem ra ∈ env'.dlResps ∧
        (recur st' env').2.1.remaining_downloads = newQuota rem st'.remaining_downloads)
    (bytes : List Nat)
    (hsucc : (downloadStatusChain hasCreds st1 resp? env3 recur).1 = some bytes) :
    ∃ lk rem ra,
      (resp? = some (DlResp.resp 200 (some lk) rem ra) ∨
        DlResp.resp 200 (some lk) rem ra ∈ env3.dlResps) ∧
      (downloadStatusChain hasCreds st1 resp? env3 recur).2.1.remaining_downloads
        = newQuota rem st1.remaining_downloads := by
  cases resp? with
  | none => exact absurd hsucc (by simp [downloadStatusChain])
  | some r0 =>
    cases r0 with
    | exn => exact absurd hsucc (by simp [downloadStatusChain])
    | resp status link remaining ra0 =>
      by_cases h200 : status = 200
      · subst h200
        cases link with
        | none =>
          exfalso
          unfold downloadStatusChain at hsucc
          dsimp only at hsucc
          rw [if_pos rfl] at hsucc
          exact absurd hsucc (by simp)
        | some lk =>
          have hst : (downloadStatusChain hasCreds st1
              (some (DlResp.resp 200 (some lk) remaining ra0)) env3 recur).2.1 =
              { st1 with remaining_downloads := newQuota remaining st1.remaining_downloads }
              := by
            unfold downloadStatusChain
            dsimp only
            rw [if_pos rfl]
            split <;> rfl
          exact ⟨lk, remaining, ra0, Or.inl rfl, by rw [hst]⟩
      · by_cases h401 : status = 401
        · subst h401
          unfold downloadStatusChain at hsucc ⊢
          dsimp only at hsucc ⊢
          rw [if_neg h200, if_pos rfl] at hsucc ⊢
          rcases hlg : login hasCreds { st1 with jwt_token := none } env3
            with ⟨b, st3, env4, ev5⟩
          rw [hlg] at hsucc
          have hrem3 := (login_preserves hasCreds { st1 with jwt_token := none } env3).1
          rw [hlg] at hrem3
          have hdl4 := (login_preserves hasCreds { st1 with jwt_token := none } env3).2.1
          rw [hlg] at hdl4
          dsimp only at hrem3 hdl4
          cases b with
          | false =>
            dsimp only at hsucc
            exact absurd hsucc (by simp)
          | true =>
            dsimp only at hsucc ⊢
            obtain ⟨lk, rem, ra, hmem, hquota⟩ := hrec st3 env4 bytes hsucc
            refine ⟨lk, rem, ra, Or.inr (by rw [← hdl4]; exact hmem), ?_⟩
            rw [hquota, hrem3]
        · exfalso
          unfold downloadStatusChain at hsucc
          dsimp only at hsucc
          rw [if_neg h200, if_neg h401] at hsucc
          exact absurd hsucc (by simp)

theorem downloadCoreWith_success_quota (hasCreds : Bool) (st1 : ApiState) (env1 : Env)
    (recur : ApiState → Env → Option (List Nat) × ApiState × Env × List Event)
    (hrec : ∀ (st' : ApiState) (env' : Env) (bytes : List Nat),
      (recur st' env').1 = some bytes →
      ∃ lk rem ra, DlResp.resp 200 (some lk) rem ra ∈ env'.dlResps ∧
        (recur st' env').2.1.remaining_downloads = newQuota rem st'.remaining_downloads)
    (bytes : List Nat)
    (hsucc : (downloadCoreWith hasCreds st1 env1 recur).1 = some bytes) :
    ∃ lk rem ra, DlResp.resp 200 (some lk) rem ra ∈ env1.dlResps ∧
      (downloadCoreWith hasCreds st1 env1 recur).2.1.remaining_downloads
        = newQuota rem st1.remaining_downloads := by
  unfold downloadCoreWith at hsucc ⊢
  by_cases hqe : quotaExhausted st1.remaining_downloads = true
  · rw [if_pos hqe] at hsucc
    exact absurd hsucc (by simp)
  · rw [if_neg hqe] at hsucc ⊢
    rcases hr0 : (env1.popDl).1 with _ | r
    · rw [hr0] at hsucc
      dsimp only [withEvents] at hsucc ⊢
      obtain ⟨lk, rem, ra, hsrc, hquota⟩ :=
        downloadStatusChain_success_quota hasCreds st1 none ((env1.popDl).2) recur hrec
          bytes hsucc
      rcases hsrc with hform | hmem
      · exact absurd hform (by simp)
      · exact ⟨lk, rem, ra, List.tail_subset _ hmem, hquota⟩
    · cases r with
      | exn =>
        rw [hr0] at hsucc
        dsimp only [withEvents] at hsucc ⊢
        obtain ⟨lk, rem, ra, hsrc, hquota⟩ :=
          downloadStatusChain_success_quota hasCreds st1 (some DlResp.exn)
            ((env1.popDl).2) recur hrec bytes hsucc
        rcases hsrc with hform | hmem
        · exact absurd hform (by simp)
        · exact ⟨lk, rem, ra, List.tail_subset _ hmem, hquota⟩
      | resp rstatus rlink rrem rra =>
        rw [hr0] at hsucc
        dsimp only at hsucc ⊢
        by_cases h429 : rstatus = 429 ∧ rra.isSome = true
        · rw [if_pos h429] at hsucc ⊢
          dsimp only [withEvents] at hsucc ⊢
          obtain ⟨lk, rem, ra, hsrc, hquota⟩ :=
            downloadStatusChain_success_quota hasCreds st1 ((((env1.popDl).2).popDl).1)
              ((((env1.popDl).2).popDl).2) recur hrec bytes hsucc
          rcases hsrc with hform | hmem
          · refine ⟨lk, rem, ra, ?_, hquota⟩
            exact List.tail_subset _ (List.mem_of_mem_head?
              (show (((env1.popDl).2).dlResps).head? = some _ from hform))
          · exact ⟨lk, rem, ra, List.tail_subset _ (List.tail_subset _ hmem), hquota⟩
        · rw [if_neg h429] at hsucc ⊢
          dsimp only [withEvents] at hsucc ⊢
          obtain ⟨lk, rem, ra, hsrc, hquota⟩ :=
            downloadStatusChain_success_quota hasCreds st1
              (some (DlResp.resp rstatus rlink rrem rra)) ((env1.popDl).2) recur hrec
              bytes hsucc
          rcases hsrc with hform | hmem
          · refine ⟨lk, rem, ra, ?_, hquota⟩
            injection hform with hform
            rw [← hform]
            exact List.mem_of_mem_head?
              (show env1.dlResps.head? = some (DlResp.resp rstatus rlink rrem rra) from hr0)
          · exact ⟨lk, rem, ra, List.tail_subset _ hmem, hquota⟩

theorem downloadSubtitle_success_quota (hasCreds : Bool) (fid : Nat) :
    ∀ (fuel : Nat) (st : ApiState) (env : Env) (bytes : List Nat),
      (downloadSubtitle hasCreds fid fuel st env).1 = some bytes →
      ∃ lk rem ra, DlResp.resp 200 (some lk) rem ra ∈ env.dlResps ∧
        (downloadSubtitle hasCreds fid fuel st env).2.1.remaining_downloads
          = newQuota rem st.remaining_downloads := by
  intro fuel
  induction fuel with
  | zero =>
    intro st env bytes h
    exact absurd h (by simp [downloadSubtitle])
  | succ fuel ih =>
    intro st env bytes hsucc
    obtain ⟨tok, rem0⟩ := st
    cases tok with
    | some t =>
      exact downloadCoreWith_success_quota hasCreds ⟨some t, rem0⟩ env
        (fun st' env' => downloadSubtitle hasCreds fid fuel st' env')
        (fun st' env' b hb => ih st' env' b hb) bytes hsucc
    | none =>
      simp only [downloadSubtitle] at hsucc ⊢
      rcases hlg : login hasCreds ⟨none, rem0⟩ env with ⟨b, st1, env1, ev1⟩
      rw [hlg] at hsucc
      have hrem1 := (login_preserves hasCreds ⟨none, rem0⟩ env).1
      rw [hlg] at hrem1
      have hdl1 := (login_preserves hasCreds ⟨none, rem0⟩ env).2.1
      rw [hlg] at hdl1
      dsimp only at hrem1 hdl1
      cases b with
      | false =>
        dsimp only at hsucc
        exact absurd hsucc (by simp)
      | true =>
        dsimp only [withEvents] at hsucc ⊢
        obtain ⟨lk, remv, ra, hmem, hquota⟩ :=
          downloadCoreWith_success_quota hasCreds st1 env1
            (fun st' env' => downloadSubtitle hasCreds fid fuel st' env')
            (fun st' env' b hb => ih st' env' b hb) bytes hsucc
        refine ⟨lk, remv, ra, by rw [← hdl1]; exact hmem, ?_⟩
        rw [hquota, hrem1]

/- ## Claim C3 -/

/-- C3: quota tracking.  (1) The freshly constructed client (token and
quota both `None`) satisfies the invariant `Inv` relating quota and
session.  (2) From any invariant state whose tracked quota is known and
exhausted (the code's `remaining <= 0` check, covering "known to be
zero"), `download_subtitle` fails fast: result `None`, state and
environment unchanged, empty event trace — so no network request of
any kind is issued.  (3) Against a well-formed provider (200 login
responses carry a token) the invariant is preserved by every call, so
(2) applies to every subsequent call.  (4) The tracked quota is never
invented locally: after any call it is either unchanged or exactly
`some v` for a value `v` reported in the `remaining` field of a 200
download-initiation response of this run.  (5) Every successful
download refreshes the tracked quota from the succeeding 200
response's metadata: the final quota is exactly
`data.get('remaining', old)` of that response (line 283) — the
reported value when the `remaining` field is present, the pre-call
quota when the provider omits it — never decremented or otherwise
computed by the client.  (Login and the 401 path never touch the
quota, so the `old` in the refresh is the pre-call quota.) -/
theorem claim_quota :
    Inv ⟨none, none⟩ ∧
    (∀ (hasCreds : Bool) (fid fuel : Nat) (st : ApiState) (env : Env),
        Inv st → quotaExhausted st.remaining_downloads = true →
        downloadSubtitle hasCreds fid (fuel + 1) st env = (none, st, env, [])) ∧
    (∀ (hasCreds : Bool) (fid fuel : Nat) (st : ApiState) (env : Env),
        EnvWfLogin env → Inv st →
        Inv (downloadSubtitle hasCreds fid fuel st env).2.1) ∧
    (∀ (hasCreds : Bool) (fid fuel : Nat) (st : ApiState) (env : Env),
        EnvWfLogin env → Inv st →
        ((downloadSubtitle hasCreds fid fuel st env).2.1.remaining_downloads
            = st.remaining_downloads ∨
          ∃ v : Int,
            (downloadSubtitle hasCreds fid fuel st env).2.1.remaining_downloads = some v ∧
            ∃ l ra, DlResp.resp 200 l (some v) ra ∈ env.dlResps)) ∧
    (∀ (hasCreds : Bool) (fid fuel : Nat) (st : ApiState) (env : Env) (bytes : List Nat),
        (downloadSubtitle hasCreds fid fuel st env).1 = some bytes →
        ∃ lk rem ra, DlResp.resp 200 (some lk) rem ra ∈ env.dlResps ∧
          (downloadSubtitle hasCreds fid fuel st env).2.1.remaining_downloads
            = newQuota rem st.remaining_downloads) := by
  refine ⟨?_, ?_, ?_, ?_, ?_⟩
  · intro q hq
    exact absurd hq (by simp)
  · exact fun hasCreds fid fuel st env hinv hq =>
      downloadSubtitle_failfast hasCreds fid fuel st env hinv hq
  · exact fun hasCreds fid fuel st env hwf hinv =>
      ((downloadSubtitle_props hasCreds fid fuel st env).2 hwf hinv).1
  · exact fun hasCreds fid fuel st env hwf hinv =>
      ((downloadSubtitle_props hasCreds fid fuel st env).2 hwf hinv).2
  · exact fun hasCreds fid fuel st env bytes hsucc =>
      downloadSubtitle_success_quota hasCreds fid fuel st env bytes hsucc

/-- C3 witness: a client whose tracked quota is 0 (token present, as
in every reachable such state) fails fast without consuming the queued
download response or emitting any event; and a successful download
against a provider reporting `remaining = 5` leaves the tracked quota
refreshed from that response (`newQuota (some 5) none = some 5`). -/
theorem claim_quota_witness :
    (downloadSubtitle true 1 1 ⟨some "t".data, some 0⟩
        ⟨[], [DlResp.resp 200 (some "L".data) (some 5) none], [], []⟩ =
      (none, ⟨some "t".data, some 0⟩,
        ⟨[], [DlResp.resp 200 (some "L".data) (some 5) none], [], []⟩, [])) ∧
    (∃ lk rem ra,
      DlResp.resp 200 (some lk) rem ra ∈
        (Env.mk [] [DlResp.resp 200 (some "L".data) (some 5) none]
          [FileResp.resp 200 [1]] []).dlResps ∧
      (downloadSubtitle true 1 1 ⟨some "t".data, none⟩
          ⟨[], [DlResp.resp 200 (some "L".data) (some 5) none],
            [FileResp.resp 200 [1]], []⟩).2.1.remaining_downloads
        = newQuota rem (ApiState.mk (some "t".data) none).remaining_downloads) :=
  ⟨claim_quota.2.1 true 1 0 ⟨some "t".data, some 0⟩
      ⟨[], [DlResp.resp 200 (some "L".data) (some 5) none], [], []⟩
      (fun _ _ _ => by simp) (by decide),
    claim_quota.2.2.2.2 true 1 1 ⟨some "t".data, none⟩
      ⟨[], [DlResp.resp 200 (some "L".data) (some 5) none], [FileResp.resp 200 [1]], []⟩
      [1] rfl⟩

/- ## Claim C7 -/

/-- C7 counterexample: a successful download whose trace is
`[acquire, downloadPost, fileGet]` — the GET of the signed URL (the
second of download's two sub-requests) is issued with no rate-limiter
acquire between it and the initiation POST, so the trace violates the
claimed every-request-is-preceded-by-an-acquire discipline
(`wellSpaced` is false), refuting the claim on a concrete run. -/
theorem claim_rate_limit_counterexample :
    (downloadSubtitle true 1 1 ⟨some "t".data, none⟩
        ⟨[], [DlResp.resp 200 (some "L".data) (some 5) none],
          [FileResp.resp 200 [1]], []⟩).1 = some [1] ∧
    (downloadSubtitle true 1 1 ⟨some "t".data, none⟩
        ⟨[], [DlResp.resp 200 (some "L".data) (some 5) none],
          [FileResp.resp 200 [1]], []⟩).2.2.2 =
      [Event.acquire, Event.downloadPost, Event.fileGet] ∧
    wellSpaced ((downloadSubtitle true 1 1 ⟨some "t".data, none⟩
        ⟨[], [DlResp.resp 200 (some "L".data) (some 5) none],
          [FileResp.resp 200 [1]], []⟩).2.2.2) = false := by
  exact ⟨rfl, rfl, rfl⟩

/-- C7 amended: the login POST, the search GET (first attempt) and the
download-initiation POST (first attempt) are each immediately preceded
by a rate-limiter acquire, but the 429-retry requests directly follow
the attempt they retry, and the signed-URL GET directly follows the
initiation POST — both without passing through the limiter.  Formally:
every trace of `login`, `search_subtitles` and `download_subtitle`
satisfies the adjacency discipline `adjOk` (login POST after an
acquire; search GET after an acquire or the previous GET; download
POST after an acquire or the previous POST; file GET only directly
after the download POST), and the search trace is exactly one or two
GETs after a single acquire. -/
theorem claim_rate_limit_amended :
    (∀ (hasCreds : Bool) (st : ApiState) (env : Env),
        adjOk (login hasCreds st env).2.2.2 = true) ∧
    (∀ env : Env,
        ((searchSubtitles env).2.2 = [Event.acquire, Event.searchGet] ∨
          (searchSubtitles env).2.2 =
            [Event.acquire, Event.searchGet, Event.searchGet]) ∧
        adjOk (searchSubtitles env).2.2 = true) ∧
    (∀ (hasCreds : Bool) (fid fuel : Nat) (st : ApiState) (env : Env),
        adjOk (downloadSubtitle hasCreds fid fuel st env).2.2.2 = true) := by
  refine ⟨?_, ?_, ?_⟩
  · intro hasCreds st env
    have h := (login_preserves hasCreds st env).2.2.2.2
    rcases h with h | h <;> rw [h] <;> rfl
  · intro env
    refine ⟨searchSubtitles_events env, ?_⟩
    rcases searchSubtitles_events env with h | h <;> rw [h] <;> rfl
  · intro hasCreds fid fuel st env
    exact (downloadSubtitle_props hasCreds fid fuel st env).1.1

/-- C7 amended witness at concrete runs: a login trace and a download
trace both pass the adjacency check. -/
theorem claim_rate_limit_amended_witness :
    adjOk (login true ⟨none, none⟩ ⟨[LoginResp.resp 200 (some "t".data)], [], [], []⟩).2.2.2
      = true ∧
    adjOk (downloadSubtitle true 1 1 ⟨some "t".data, none⟩
        ⟨[], [DlResp.resp 200 (some "L".data) (some 5) none],
          [FileResp.resp 200 [1]], []⟩).2.2.2 = true :=
  ⟨claim_rate_limit_amended.1 true ⟨none, none⟩
      ⟨[LoginResp.resp 200 (some "t".data)], [], [], []⟩,
    claim_rate_limit_amended.2.2 true 1 1 ⟨some "t".data, none⟩
      ⟨[], [DlResp.resp 200 (some "L".data) (some 5) none], [FileResp.resp 200 [1]], []⟩⟩

/- ## Claim C6 -/

/-- C6 counterexample: an attempted (item, language) download that
fails produces NO DownloadRecord at all — the claim demands a failure
record carrying the error cause, but the code only logs (lines
545-546) and `download_report` gains nothing: one language, one
matching candidate, download returns `None`, and the loop ends with
zero downloads and an empty report. -/
theorem claim_record_counterexample :
    processLanguages ⟨"T".data, "movie".data, fun l => l, "ts".data⟩
        [RawResult.mk (some "es".data) (some 9) (some 200) none none (some [some 5])]
        (fun _ => none) (fun _ => true) ["es".data] 0 0 [] = Except.ok (0, []) := by
  rfl

/-- C6 amended: a DownloadRecord is appended exactly for each
(item, language) attempt whose download succeeded and whose file save
succeeded — failed attempts (no candidate, missing file id, failed
download, failed save) append nothing; the report grows append-only by
exactly the count of successful downloads, at most one per missing
language, and per-language failures never abort the remaining
languages (the loop always reaches the end of the language list)
provided no candidate carries the present-but-empty `files` list on
which the Python code raises `IndexError`. -/
theorem claim_record_amended :
    ∀ (ctx : ItemCtx) (results : List RawResult) (dl : Nat → Option (List Nat))
      (save : Nat → Bool) (langs : List Str) (a count : Nat)
      (report : List DownloadedSubtitle),
      ResultsWf results →
      ∃ (c : Nat) (newRecs : List DownloadedSubtitle),
        processLanguages ctx results dl save langs a count report =
          Except.ok (count + c, report ++ newRecs) ∧
        newRecs.length = c ∧ c ≤ langs.length := by
  intro ctx results dl save langs a count report hwf
  induction langs generalizing a count report with
  | nil => exact ⟨0, [], by simp [processLanguages], rfl, Nat.zero_le _⟩
  | cons lang rest ih =>
    cases hsb : selectBest results lang with
    | none =>
      obtain ⟨c, nr, heq, hlen, hle⟩ := ih a count report
      refine ⟨c, nr, ?_, hlen, Nat.le_succ_of_le hle⟩
      rw [show processLanguages ctx results dl save (lang :: rest) a count report =
          processLanguages ctx results dl save rest a count report from by
        simp [processLanguages, hsb]]
      exact heq
    | some best =>
      match hbf : best.files with
      | some [] =>
        exact absurd hbf (hwf best (selectBest_mem _ _ _ hsb))
      | none =>
        obtain ⟨c, nr, heq, hlen, hle⟩ := ih a count report
        refine ⟨c, nr, ?_, hlen, Nat.le_succ_of_le hle⟩
        rw [show processLanguages ctx results dl save (lang :: rest) a count report =
            processLanguages ctx results dl save rest a count report from by
          simp [processLanguages, hsb, hbf]]
        exact heq
      | some (none :: fs) =>
        obtain ⟨c, nr, heq, hlen, hle⟩ := ih a count report
        refine ⟨c, nr, ?_, hlen, Nat.le_succ_of_le hle⟩
        rw [show processLanguages ctx results dl save (lang :: rest) a count report =
            processLanguages ctx results dl save rest a count report from by
          simp [processLanguages, hsb, hbf]]
        exact heq
      | some (some 0 :: fs) =>
        obtain ⟨c, nr, heq, hlen, hle⟩ := ih a count report
        refine ⟨c, nr, ?_, hlen, Nat.le_succ_of_le hle⟩
        rw [show processLanguages ctx results dl save (lang :: rest) a count report =
            processLanguages ctx results dl save rest a count report from by
          simp [processLanguages, hsb, hbf]]
        exact heq
      | some (some (n + 1) :: fs) =>
        by_cases hct : contentTruthy (dl a) = true
        · by_cases hsv : save a = true
          · obtain ⟨c, nr, heq, hlen, hle⟩ :=
              ih (a + 1) (count + 1) (report ++ [mkRecord ctx lang best])
            refine ⟨c + 1, mkRecord ctx lang best :: nr, ?_, by simp [hlen],
              by simp only [List.length_cons]; omega⟩
            rw [show processLanguages ctx results dl save (lang :: rest) a count report =
                processLanguages ctx results dl save rest (a + 1) (count + 1)
                  (report ++ [mkRecord ctx lang best]) from by
              simp [processLanguages, hsb, hbf, hct, hsv]]
            rw [heq]
            congr 1
            refine Prod.ext ?_ ?_
            · simp; omega
            · simp
          · obtain ⟨c, nr, heq, hlen, hle⟩ := ih (a + 1) count report
            refine ⟨c, nr, ?_, hlen, Nat.le_succ_of_le hle⟩
            rw [show processLanguages ctx results dl save (lang :: rest) a count report =
                processLanguages ctx results dl save rest (a + 1) count report from by
              simp [processLanguages, hsb, hbf, hct, hsv]]
            exact heq
        · obtain ⟨c, nr, heq, hlen, hle⟩ := ih (a + 1) count report
          refine ⟨c, nr, ?_, hlen, Nat.le_succ_of_le hle⟩
          rw [show processLanguages ctx results dl save (lang :: rest) a count report =
              processLanguages ctx results dl save rest (a + 1) count report from by
            simp [processLanguages, hsb, hbf, hct]]
          exact heq

/-- C6 amended witness: one language, one candidate, a succeeding
download and save — exactly one record is appended. -/
theorem claim_record_amended_witness :
    ∃ (c : Nat) (newRecs : List DownloadedSubtitle),
      processLanguages ⟨"T".data, "movie".data, fun l => l, "ts".data⟩
          [RawResult.mk (some "es".data) (some 9) (some 200) none none (some [some 5])]
          (fun _ => some [7]) (fun _ => true) ["es".data] 0 0 [] =
        Except.ok (0 + c, [] ++ newRecs) ∧
      newRecs.length = c ∧ c ≤ (["es".data] : List Str).length :=
  claim_record_amended ⟨"T".data, "movie".data, fun l => l, "ts".data⟩
    [RawResult.mk (some "es".data) (some 9) (some 200) none none (some [some 5])]
    (fun _ => some [7]) (fun _ => true) ["es".data] 0 0 []
    (by
      intro r hr
      rw [List.mem_singleton] at hr
      subst hr
      simp)

end PlexOpensub
